import Mathlib

/-!
Verification of the category-selection / offer-resolution engine of the
discovercars price tracker.

The Python sources are embedded shallowly:

* Python `dict` objects are modelled as association lists with unique keys,
  together with `dget` (lookup), `dinsert` (assignment: replace the existing
  binding or append a new one, mirroring `d[k] = v`).
* Python `float` prices and scores are modelled as rationals (`ℚ`);
  `None`-able values are `Option`s.
* `round(x, 2)` is modelled as round-half-to-even on rationals at two
  decimal places (`round2`), matching Python's rounding on exact inputs.
* The external collaborators (Playwright page fetches, the LLM call) are
  modelled as explicit function arguments.
-/

namespace DCT

attribute [local semireducible] Rat.add Rat.sub Rat.mul Rat.inv

/-! ## Dictionaries as association lists -/

/-- Python `d.get(k)`: first binding of key `k`, if any. -/
def dget {α β : Type} [DecidableEq α] : List (α × β) → α → Option β
  | [], _ => none
  | (k, v) :: rest, a => if a = k then some v else dget rest a

/-- Python `d[k] = v`: replace the first binding of `k`, or append `(k, v)`
at the end if `k` is absent (dict insertion order semantics). -/
def dinsert {α β : Type} [DecidableEq α] : List (α × β) → α → β → List (α × β)
  | [], a, b => [(a, b)]
  | (k, v) :: rest, a, b =>
      if a = k then (k, b) :: rest else (k, v) :: dinsert rest a b

/-- Python `d.get(k, dflt)`. -/
def dgetD {α β : Type} [DecidableEq α] (l : List (α × β)) (a : α) (dflt : β) : β :=
  (dget l a).getD dflt

/-! ## String helpers (Python `str.lower` / `str.upper` / `str.strip`) -/

/-- Python `s.lower()`, character by character. -/
def toLowerS (s : String) : String := ⟨s.data.map Char.toLower⟩

/-- Python `s.upper()`, character by character. -/
def toUpperS (s : String) : String := ⟨s.data.map Char.toUpper⟩

/-- Python `s.strip()`: drop whitespace from both ends. -/
def trimS (s : String) : String :=
  ⟨((s.data.dropWhile Char.isWhitespace).reverse.dropWhile Char.isWhitespace).reverse⟩

/-- Lexicographic (code-point) comparison of character lists, as Python
compares strings. -/
def charsLE : List Char → List Char → Bool
  | [], _ => true
  | _ :: _, [] => false
  | a :: as, b :: bs => if a < b then true else if b < a then false else charsLE as bs

/-- Python `a <= b` on strings. -/
def strLE (a b : String) : Prop := charsLE a.data b.data = true

instance : DecidableRel strLE := fun a b => by unfold strLE; infer_instance

/-- Stable insertion of `x` into a sorted list (Python `list.sort` model). -/
def insertS {α : Type} (le : α → α → Bool) (x : α) : List α → List α
  | [] => [x]
  | y :: ys => if le x y then x :: y :: ys else y :: insertS le x ys

/-- Python's stable `sorted` / `list.sort`, as an insertion sort. -/
def sortByB {α : Type} (le : α → α → Bool) (l : List α) : List α :=
  l.foldr (insertS le) []

/-! ## Rounding (Python `round(x, 2)`) -/

/-- Round-half-to-even of a rational to an integer, as Python's `round`
behaves on exact decimal inputs. -/
def roundHalfEven (x : ℚ) : ℤ :=
  let z := ⌊x⌋
  let f := x - z
  if f < 1/2 then z
  else if 1/2 < f then z + 1
  else if z % 2 = 0 then z else z + 1

/-- Python `round(x, 2)`. -/
def round2 (x : ℚ) : ℚ := (roundHalfEven (x * 100) : ℚ) / 100

/-! ## step_3.py — classifier adapter

A per-pass score map (`buckets` in the source) is
`Dict[str, Dict[str, float]]`: category SIPP code → model name → score. -/

/-- `Dict[str, Dict[str, float]]` from `step_3.py`. -/
abbrev SMap := List (String × List (String × ℚ))

/-- Keys of an association list are pairwise distinct (always true of a
list obtained from a Python `dict`). -/
def keysNodup {α β : Type} (l : List (α × β)) : Prop := (l.map Prod.fst).Nodup

instance {α β : Type} [DecidableEq α] (l : List (α × β)) : Decidable (keysNodup l) := by
  unfold keysNodup; infer_instance

/-- Score of `(code, model)` in a score map (`buckets[code].get(model)`). -/
def score2 (mp : SMap) (code model : String) : Option ℚ :=
  (dget mp code).bind (fun inner => dget inner model)

/-- Inner loop of `merge_vehicle_maps`:
`for m, s in models.items(): out[code][m] = max(out[code].get(m, 0.0), s)`. -/
def mergeInner (inner models : List (String × ℚ)) : List (String × ℚ) :=
  models.foldl (fun acc p => dinsert acc p.1 (max (dgetD acc p.1 0) p.2)) inner

/-- One outer-loop step of `merge_vehicle_maps`:
`out.setdefault(code, {})` followed by the inner loop. -/
def mergeStep (out : SMap) (p : String × List (String × ℚ)) : SMap :=
  dinsert out p.1 (mergeInner (dgetD out p.1 []) p.2)

/-- `merge_vehicle_maps(base, add)` from `step_3.py` (lines 149-158). -/
def merge_vehicle_maps (base add : SMap) : SMap :=
  add.foldl mergeStep base

/-- `step_3.py` classifier response items: either not a JSON record at all,
or a record whose `model`, `sipp_code` and `score` fields may each be
missing (or of an unusable type, which `step_3` treats the same way). -/
inductive RItem where
  | notDict : RItem
  | item (model : Option String) (sipp : Option String) (score : Option ℚ) : RItem
deriving DecidableEq

/-- `chunked(seq, BATCH_SIZE)` with `BATCH_SIZE = 15`. -/
def chunked {α : Type} : List α → List (List α)
  | [] => []
  | a :: l => (a :: l).take 15 :: chunked ((a :: l).drop 15)
termination_by l => l.length
decreasing_by simp; omega

/-- Body of the `for itm in parsed` loop of `classify_batches`
(lines 134-143): drop the item unless its model is in the requested batch,
its uppercased code is a bucket key and its score is numeric; then keep the
max score per `(code, model)`. -/
def processItem (bks : SMap) (batch : List String) : RItem → SMap
  | .notDict => bks
  | .item mdl sipp scr =>
      let code := toUpperS (sipp.getD "")
      match mdl, scr with
      | some m, some s =>
          if m ∈ batch ∧ (dget bks code).isSome then
            if dgetD (dgetD bks code []) m 0 < s then
              dinsert bks code (dinsert (dgetD bks code []) m s)
            else bks
          else bks
      | _, _ => bks

/-- Process one parsed batch response. -/
def processBatch (bks : SMap) (batch : List String) (parsed : List RItem) : SMap :=
  parsed.foldl (fun b itm => processItem b batch itm) bks

/-- `classify_batches(llm, groups_subset, car_names)` from `step_3.py`
(lines 112-144); the LLM collaborator is the function `llm`, giving the
parsed response for each batch of model names. -/
def classify_batches (groups : List String) (llm : List String → List RItem)
    (carNames : List String) : SMap :=
  let buckets := groups.foldl (fun acc g => dinsert acc (toUpperS g) ([] : List (String × ℚ))) []
  (chunked carNames).foldl (fun bks batch => processBatch bks batch (llm batch)) buckets

/-- The claim's list of well-formed response items: a record with a model
belonging to the requested batch, a numeric score, and a `sipp_code` naming
(case-insensitively) one of the requested categories. -/
def validItem (groups batch : List String) : RItem → Bool
  | .notDict => false
  | .item (some m) (some sp) (some _) =>
      decide (m ∈ batch) && decide (toUpperS sp ∈ groups.map toUpperS)
  | .item _ _ _ => false

/-- Scores stored in a score map are all nonnegative (true of every map
produced by `classify_batches`, which only stores scores above the default
`0`). -/
def nonnegS (mp : SMap) : Prop := ∀ p ∈ mp, ∀ q ∈ p.2, (0 : ℚ) ≤ q.2

instance (mp : SMap) : Decidable (nonnegS mp) := by
  unfold nonnegS; infer_instance

/-! ## step_5.py — Policy A resolver -/

/-- One scraped listing from `cars.json` (an `Offer` of the spec). -/
structure Offer where
  name : String
  link : String
  price_eur : Option ℚ
  price_text : String
deriving DecidableEq

/-- The value stored per model name by `step_5.py` in `cars_by_model`. -/
structure CarInfo where
  link : String
  price_eur : Option ℚ
  price_text : String
deriving DecidableEq

/-- One iteration of the `for entry in cars` loop building `cars_by_model`
(`step_5.py` lines 186-203): keep the entry with the lowest non-null
`price_eur`; a first entry is stored even when its price is null. -/
def carsStep (acc : List (String × CarInfo)) (e : Offer) : List (String × CarInfo) :=
  match dget acc (trimS e.name) with
  | some existing =>
      match e.price_eur, existing.price_eur with
      | some p, none => dinsert acc (trimS e.name) ⟨e.link, some p, e.price_text⟩
      | some p, some q =>
          if p < q then dinsert acc (trimS e.name) ⟨e.link, some p, e.price_text⟩ else acc
      | none, _ => acc
  | none => dinsert acc (trimS e.name) ⟨e.link, e.price_eur, e.price_text⟩

/-- `cars_by_model` of `step_5.py`. -/
def cars_by_model (cars : List Offer) : List (String × CarInfo) :=
  cars.foldl carsStep []

/-- The effect of one `cars_by_model` iteration on the binding of the
entry's own model name (used to characterise `cars_by_model` lookups). -/
def carsCombine (cur : Option CarInfo) (e : Offer) : Option CarInfo :=
  match cur with
  | none => some ⟨e.link, e.price_eur, e.price_text⟩
  | some info =>
      match e.price_eur, info.price_eur with
      | some p, none => some ⟨e.link, some p, e.price_text⟩
      | some p, some q => if p < q then some ⟨e.link, some p, e.price_text⟩ else some info
      | none, _ => some info

/-- One scored assignment in a group's `vehicles` list. -/
structure Vehicle where
  model : String
  score : ℚ
deriving DecidableEq

/-- A category record from `gruppi_sipp.json`. -/
structure Group where
  sipp_code : String
  transmission : String
  vehicles : List Vehicle
deriving DecidableEq

/-- Python `max(v["score"] for v in vehs)` (only used on non-empty lists). -/
def maxScore : List Vehicle → ℚ
  | [] => 0
  | v :: rest => rest.foldl (fun a w => max a w.score) v.score

/-- `candidates = [v for v in vehs if v["score"] == max_score]` followed by
`candidates[0]` (`step_5.py` lines 222-225). -/
def bestVehicle (vehs : List Vehicle) : Option Vehicle :=
  (vehs.filter (fun v => decide (v.score = maxScore vehs))).head?

/-- Detail record scraped from an offer page by `parse_car_page`; only the
fields read by resolution and aggregation are modelled, the remaining page
data is opaque pass-through. -/
structure Detail where
  supplier_name : String
  transmission : String
  pay_now : Option ℚ
  pay_on_arrival : Option ℚ
deriving DecidableEq

/-- The `selected_car_details` record built for a chosen offer. -/
structure Selected where
  model : String
  link : String
  price_eur : Option ℚ
  price_text : String
  detail : Detail
deriving DecidableEq

/-- Body of the `for grp in gruppi` loop of `step_5.py` (lines 214-256);
`fetch` models the Playwright page visit (`none` = timeout). -/
def step5Group (fetch : String → Option Detail) (carsMap : List (String × CarInfo))
    (g : Group) : Option Selected :=
  if g.vehicles = [] then none
  else
    (bestVehicle g.vehicles).bind (fun best =>
      (dget carsMap best.model).bind (fun info =>
        (fetch info.link).map (fun d =>
          ⟨best.model, info.link, info.price_eur, info.price_text, d⟩)))

/-- Output row of both resolvers: the input category record plus the added
`selected_car_details` field (the only added field; a Python `dict.copy()`
preserves every original field). -/
structure GroupOut where
  grp : Group
  selected_car_details : Option Selected
deriving DecidableEq

/-- The full `step_5` group loop: one output record appended per input
group, in input order. -/
def step_5 (fetch : String → Option Detail) (cars : List Offer)
    (gruppi : List Group) : List GroupOut :=
  gruppi.foldl (fun out g => out ++ [⟨g, step5Group fetch (cars_by_model cars) g⟩]) []

/-- The ordering in which `step_3.py` (line 214) emits each group's
`vehicles` list: descending score, then ascending case-insensitive model
name. -/
def vehOrder (a b : Vehicle) : Prop :=
  b.score < a.score ∨ (a.score = b.score ∧ strLE (toLowerS a.model) (toLowerS b.model))

instance : DecidableRel vehOrder := fun a b => by unfold vehOrder; infer_instance

/-! ## step_5_v2.py — Policy B resolver -/

def SOGLIA_SCORE : ℚ := 9/10

def EXCLUDE_SUPPLIERS : List String := ["Sicily By Car"]

/-- Helper for `strContains`: the needle starts the haystack. -/
def startsWithB : List Char → List Char → Bool
  | [], _ => true
  | _ :: _, [] => false
  | a :: as, b :: bs => decide (a = b) && startsWithB as bs

/-- Helper for `strContains` on character lists. -/
def containsCharsB (needle : List Char) : List Char → Bool
  | [] => needle.isEmpty
  | c :: rest => startsWithB needle (c :: rest) || containsCharsB needle rest

/-- Python `needle in hay` on strings (substring test). -/
def strContains (hay needle : String) : Bool :=
  containsCharsB needle.toList hay.toList

/-- Outcome of visiting an offer link in `step_5_v2.py`: timeout, redirect
to a `/search/` page (stale link), missing `.car-name` detail marker, or a
successfully parsed detail page. -/
inductive FetchResult where
  | timeout : FetchResult
  | redirect : FetchResult
  | nodetail : FetchResult
  | ok (d : Detail) : FetchResult
deriving DecidableEq

/-- Acceptance test of `step_5_v2.py` lines 218-224: the lower-cased
supplier name must not occur in `EXCLUDE_SUPPLIERS` (whose entries the
source does not lower-case), and, when the group declares a transmission,
the upper-cased group transmission must occur as a substring of the
upper-cased detail transmission text. -/
def acceptOffer (g : Group) (d : Detail) : Bool :=
  let supplier_ok := !(EXCLUDE_SUPPLIERS.contains (toLowerS d.supplier_name))
  let transm := toUpperS d.transmission
  let group_transm := toUpperS g.transmission
  let transm_ok := if group_transm = "" then true else strContains transm group_transm
  supplier_ok && transm_ok

/-- The selection record built when an offer is accepted, `none` when the
fetch failed (timeout / stale redirect / missing marker) or the acceptance
test rejected it. -/
def selFromOffer (fetch : String → FetchResult) (g : Group) (o : Offer) :
    Option Selected :=
  match fetch o.link with
  | .ok d =>
      if acceptOffer g d then some ⟨trimS o.name, o.link, o.price_eur, o.price_text, d⟩
      else none
  | _ => none

/-- The `for off in offers` walk of `step_5_v2.py` (lines 192-232): first
acceptable offer wins, skipped offers are never retried. -/
def walkOffers (fetch : String → FetchResult) (g : Group) : List Offer → Option Selected
  | [] => none
  | o :: rest =>
      match fetch o.link with
      | .ok d =>
          if acceptOffer g d then
            some ⟨trimS o.name, o.link, o.price_eur, o.price_text, d⟩
          else walkOffers fetch g rest
      | _ => walkOffers fetch g rest

/-- Offers keyed by stripped model name (lines 154-157), in scrape order. -/
def offersByModel (cars : List Offer) : List (String × List Offer) :=
  cars.foldl (fun acc car => dinsert acc (trimS car.name) (dgetD acc (trimS car.name) [] ++ [car])) []

/-- Sort key of both offer sorts: ascending `price_eur` with `None`
sorting last (`float("inf")`). -/
def priceKey (o : Offer) : WithTop ℚ :=
  match o.price_eur with
  | none => ⊤
  | some p => (p : WithTop ℚ)

/-- The key comparison `e["price_eur"] if ... is not None else float("inf")`,
directly on offers. -/
def priceLEB (a b : Offer) : Bool :=
  match a.price_eur, b.price_eur with
  | none, none => true
  | none, some _ => false
  | some _, none => true
  | some p, some q => decide (p ≤ q)

/-- Python's stable `list.sort(key=...)` on offers. -/
def sortOffers (l : List Offer) : List Offer := sortByB priceLEB l

/-- Candidate model names of a group: assignments with score at least
`SOGLIA_SCORE` (lines 176-179). -/
def candidateModels (g : Group) : List String :=
  (g.vehicles.filter (fun v => decide (SOGLIA_SCORE ≤ v.score))).map (fun v => v.model)

/-- The offer list walked for a group (lines 186-189): the per-model lists
of every candidate model concatenated, then sorted by price. -/
def groupOffers (obm : List (String × List Offer)) (g : Group) : List Offer :=
  sortOffers ((candidateModels g).foldl (fun acc mdl => acc ++ dgetD obm mdl []) [])

/-- Per-group resolution of `step_5_v2.py` (lines 170-234). -/
def step5v2Group (fetch : String → FetchResult) (obm : List (String × List Offer))
    (g : Group) : Option Selected :=
  if candidateModels g = [] then none
  else walkOffers fetch g (groupOffers obm g)

/-- The full `main` group loop of `step_5_v2.py`: the per-model offer lists
are pre-sorted by price (lines 159-161), then one output record is appended
per input group in input order. -/
def step5v2 (fetch : String → FetchResult) (cars : List Offer)
    (gruppi : List Group) : List GroupOut :=
  let obm := (offersByModel cars).map (fun p => (p.1, sortOffers p.2))
  gruppi.foldl (fun out g => out ++ [⟨g, step5v2Group fetch obm g⟩]) []

/-! ## gen_output_file.py — period aggregation -/

def BROKER_FEE : ℚ := 3/10

/-- Price normalization of `gen_output_file.py` lines 81-93: a positive
numeric `pay_on_arrival` is used as is, otherwise a numeric `pay_now` is
reduced by the broker fee; then one euro is subtracted, the result rounded
to two decimals and clamped at zero. -/
def genPrice (pay_now pay_on_arrival : Option ℚ) : Option ℚ :=
  let price : Option ℚ :=
    match pay_on_arrival with
    | some a => if 0 < a then some a else pay_now.map (fun n => n * (1 - BROKER_FEE))
    | none => pay_now.map (fun n => n * (1 - BROKER_FEE))
  price.map (fun p => let r := round2 (p - 1); if r < 0 then 0 else r)

/-- One record of `group_selected_details.json` as read by the aggregator:
the SIPP code and the (possibly null) selection's detail. -/
structure GItem where
  sipp_code : String
  selected_car_details : Option Detail
deriving DecidableEq

/-- The `price_map` built for one period (lines 74-95): rows with an empty
SIPP code or a null selection are skipped, then only computable prices are
recorded. -/
def periodPriceMap (groups : List GItem) : List (String × ℚ) :=
  groups.foldl
    (fun pm g =>
      match g.selected_car_details with
      | none => pm
      | some det =>
          if g.sipp_code = "" then pm
          else
            match genPrice det.pay_now det.pay_on_arrival with
            | none => pm
            | some price => dinsert pm g.sipp_code price)
    []

/-- One iteration of the `data_per_period` loop: keep the period only if
its price map is non-empty. -/
def dppStep (acc : List (Int × List (String × ℚ))) (p : Int × List GItem) :
    List (Int × List (String × ℚ)) :=
  if periodPriceMap p.2 = [] then acc else dinsert acc p.1 (periodPriceMap p.2)

/-- `data_per_period` (lines 62-98): periods that contributed at least one
price, keyed by the period length in days. -/
def dataPerPeriod (input : List (Int × List GItem)) : List (Int × List (String × ℚ)) :=
  input.foldl dppStep []

def sortInt (l : List Int) : List Int := sortByB (fun a b => decide (a ≤ b)) l

def sortStr (l : List String) : List String := sortByB (fun a b : String => charsLE a.data b.data) l

/-- The final comparison matrix (rows = SIPP codes, columns = periods,
cell = recorded price or blank). -/
structure Matrix where
  rows : List String
  cols : List Int
  cell : String → Int → Option ℚ

/-- `gen_output_file` aggregation (lines 62-110), starting from the parsed
per-period `group_selected_details.json` contents. -/
def gen_output_file (input : List (Int × List GItem)) : Matrix :=
  let dpp := dataPerPeriod input
  let allGroups := (dpp.foldl (fun s p => s ++ p.2.map Prod.fst) []).dedup
  { rows := sortStr allGroups
    cols := sortInt (dpp.map Prod.fst)
    cell := fun sipp days => dget (dgetD dpp days []) sipp }

/-! ## workflow_ui.py and process_output_file.py -/

/-- Price computation of `build_csv_for_location` (`workflow_ui.py` lines
59-68): `or 0` coalescing, truthiness tests, no clamping. -/
def uiPrice (pay_now pay_on_arrival : Option ℚ) : Option ℚ :=
  let a := pay_on_arrival.getD 0
  let n := pay_now.getD 0
  if a ≠ 0 then some (round2 (a - 1))
  else if n ≠ 0 then some (round2 (n * (7/10) - 1))
  else none

/-- A column header of the aggregated CSV: a numeric period, or the fixed
extra-days label a transformed extra period is renamed to. -/
inductive Col where
  | per (n : Int) : Col
  | extraLabel : Col
deriving DecidableEq

/-- A loaded CSV matrix: ordered column headers and a cell function keyed
by row name and the originating numeric period of a column. -/
structure DFrame where
  cols : List Col
  cell : String → Int → Option ℚ

/-- `max(prev_candidates)` on a non-empty list. -/
def listMax (b : Int) (bs : List Int) : Int := bs.foldl max b

/-- One `for ep in extra_periods` iteration of `process_extra_periods`
(`process_output_file.py` lines 59-70): a missing extra column or a missing
preceding base period raises `ValueError`. -/
def processExtraStep (basePeriods : List Int) (df : DFrame) (ep : Int) :
    Except String DFrame :=
  if (Col.per ep) ∈ df.cols then
    match basePeriods.filter (fun b => decide (b < ep) && decide ((Col.per b) ∈ df.cols)) with
    | [] => .error "no base period before extra period"
    | b :: bs =>
        let prev := listMax b bs
        .ok { cols := df.cols
              cell := fun r d =>
                if d = ep then
                  match df.cell r ep, df.cell r prev with
                  | some x, some y => some ((x - y) / ((ep : ℚ) - (prev : ℚ)))
                  | _, _ => none
                else df.cell r d }
  else .error "extra period missing from the matrix"

/-- Rename every extra-period column to the fixed extra-days label
(`process_output_file.py` lines 77-78). -/
def renameExtras (extras : List Int) (cols : List Col) : List Col :=
  cols.map (fun c =>
    match c with
    | .per n => if n ∈ extras then Col.extraLabel else Col.per n
    | .extraLabel => Col.extraLabel)

/-- `process_extra_periods(csv_path, base_periods, extra_periods)` of
`process_output_file.py`, acting on the parsed matrix; a raised
`ValueError` is the `Except.error` case. -/
def process_extra_periods (basePeriods extraPeriods : List Int) (df : DFrame) :
    Except String DFrame := do
  let df2 ← extraPeriods.foldlM (processExtraStep basePeriods) df
  pure { cols := renameExtras extraPeriods df2.cols, cell := df2.cell }

/-- One `for ep in sorted(extra_periods)` iteration of
`build_csv_for_location_` (`workflow_ui.py` lines 251-266): an extra period
with no preceding base period is silently skipped (`continue`), otherwise
the column is overwritten in place and relabelled. -/
def uiExtraStep (basePeriods : List Int) (df : DFrame) (ep : Int) : DFrame :=
  match basePeriods.filter (fun b => decide (b < ep)) with
  | [] => df
  | b :: bs =>
      let prev := listMax b bs
      { cols := df.cols.map (fun c => if c = Col.per ep then Col.extraLabel else c)
        cell := fun r d =>
          if d = ep then
            match df.cell r ep, df.cell r prev with
            | some x, some y => some ((x - y) / ((ep : ℚ) - (prev : ℚ)))
            | _, _ => none
          else df.cell r d }

/-- The extra-period pass of `build_csv_for_location_` (lines 250-266):
base periods are the requested periods minus the extra ones. -/
def build_csv_extras (periods extraPeriods : List Int) (df : DFrame) : DFrame :=
  let basePeriods := sortInt ((periods.filter (fun p => decide (p ∉ extraPeriods))).dedup)
  (sortInt extraPeriods).foldl (uiExtraStep basePeriods) df

/-- The marginal value `(price[ep] - price[prev]) / (ep - prev)` written
into an extra column, `prev` being the largest qualifying base period
(used to characterise the transformed frames). -/
def marginalCell (basePeriods : List Int) (df : DFrame) (r : String) (ep : Int) :
    Option ℚ :=
  match basePeriods.filter (fun b => decide (b < ep) && decide ((Col.per b) ∈ df.cols)) with
  | [] => df.cell r ep
  | b :: bs =>
      match df.cell r ep, df.cell r (listMax b bs) with
      | some x, some y => some ((x - y) / ((ep : ℚ) - ((listMax b bs : Int) : ℚ)))
      | _, _ => none

/-- Whether an `Except` value reports an error. -/
def isError {ε α : Type} : Except ε α → Bool
  | .error _ => true
  | .ok _ => false

/-- Concrete matrix used by the C6 witness: base periods 3 and 7, extra
period 10, row Y missing its extra-period price. -/
def dfC6 : DFrame :=
  { cols := [Col.per 3, Col.per 7, Col.per 10]
    cell := fun r d =>
      if r = "X" then
        if d = 3 then some 90 else if d = 7 then some 150 else
          if d = 10 then some 180 else none
      else if r = "Y" then
        if d = 3 then some 80 else if d = 7 then some 150 else none
      else none }

/-- Concrete aggregation input used by the C9 witness: two periods with
disjoint category sets. -/
def inputC9 : List (Int × List GItem) :=
  [(3, [⟨"X", some ⟨"s", "t", none, some 50⟩⟩]),
   (7, [⟨"Y", some ⟨"s", "t", none, some 80⟩⟩])]

/-- Concrete matrix used by the C6 counterexample: requested periods 2, 5
and 7 with extra period 2, which has no preceding base period. -/
def dfC6u : DFrame :=
  { cols := [Col.per 2, Col.per 5, Col.per 7]
    cell := fun _ d =>
      if d = 2 then some 100 else if d = 5 then some 90 else
        if d = 7 then some 150 else none }

/-! ## Association-list lemmas -/

@[simp] theorem dget_nil {α β : Type} [DecidableEq α] (a : α) :
    dget ([] : List (α × β)) a = none := rfl

@[simp] theorem dget_cons {α β : Type} [DecidableEq α] (k a : α) (v : β) (l : List (α × β)) :
    dget ((k, v) :: l) a = if a = k then some v else dget l a := rfl

theorem dget_dinsert {α β : Type} [DecidableEq α] (l : List (α × β)) (k a : α) (v : β) :
    dget (dinsert l k v) a = if a = k then some v else dget l a := by
  induction l with
  | nil => simp [dinsert, dget]
  | cons hd tl ih =>
      obtain ⟨k', v'⟩ := hd
      by_cases hk : k = k'
      · subst hk
        by_cases ha : a = k <;> simp [dinsert, dget, ha]
      · by_cases ha : a = k'
        · subst ha
          simp [dinsert, hk, dget, Ne.symm hk]
        · simp [dinsert, hk, dget, ha, ih]

@[simp] theorem dget_dinsert_self {α β : Type} [DecidableEq α] (l : List (α × β)) (k : α) (v : β) :
    dget (dinsert l k v) k = some v := by
  simp [dget_dinsert]

theorem dget_dinsert_ne {α β : Type} [DecidableEq α] (l : List (α × β)) (k a : α) (v : β)
    (h : a ≠ k) : dget (dinsert l k v) a = dget l a := by
  simp [dget_dinsert, h]

theorem dget_eq_none_iff {α β : Type} [DecidableEq α] (l : List (α × β)) (a : α) :
    dget l a = none ↔ a ∉ l.map Prod.fst := by
  induction l with
  | nil => simp
  | cons hd tl ih =>
      obtain ⟨k, v⟩ := hd
      by_cases h : a = k <;> simp [dget, h, ih]

theorem dget_mem {α β : Type} [DecidableEq α] {l : List (α × β)} {a : α} {b : β}
    (h : dget l a = some b) : (a, b) ∈ l := by
  induction l with
  | nil => simp [dget] at h
  | cons hd tl ih =>
      obtain ⟨k, v⟩ := hd
      by_cases hk : a = k
      · subst hk
        simp [dget] at h
        simp [h]
      · simp [dget, hk] at h
        exact List.mem_cons_of_mem _ (ih h)

theorem dget_self_of_nodup {α β : Type} [DecidableEq α] {l : List (α × β)}
    (h : keysNodup l) : ∀ p ∈ l, dget l p.1 = some p.2 := by
  induction l with
  | nil => simp
  | cons hd tl ih =>
      obtain ⟨k, v⟩ := hd
      simp only [keysNodup, List.map_cons, List.nodup_cons] at h
      intro p hp
      rcases List.mem_cons.1 hp with hp | hp
      · subst hp; simp [dget]
      · have hne : p.1 ≠ k := by
          intro he
          exact h.1 (he ▸ List.mem_map_of_mem Prod.fst hp)
        simp [dget, hne]
        exact ih h.2 p hp

/-! ## C7 support: the max-merge of `merge_vehicle_maps` -/

theorem nonnegS_score2 {mp : SMap} (h : nonnegS mp) {c m : String} {s : ℚ}
    (hs : score2 mp c m = some s) : 0 ≤ s := by
  unfold score2 at hs
  cases hi : dget mp c with
  | none => simp [hi] at hs
  | some inner =>
      simp [hi] at hs
      exact h _ (dget_mem hi) _ (dget_mem hs)

theorem dget_mergeInner (inner models : List (String × ℚ)) (h : keysNodup models)
    (m : String) :
    dget (mergeInner inner models) m =
      match dget models m with
      | none => dget inner m
      | some s => some (max (dgetD inner m 0) s) := by
  induction models generalizing inner with
  | nil => simp [mergeInner]
  | cons hd rest ih =>
      obtain ⟨m1, s1⟩ := hd
      simp only [keysNodup, List.map_cons, List.nodup_cons] at h
      have step : mergeInner inner ((m1, s1) :: rest) =
          mergeInner (dinsert inner m1 (max (dgetD inner m1 0) s1)) rest := rfl
      rw [step, ih _ h.2]
      by_cases hm : m = m1
      · subst hm
        have hrest : dget rest m = none :=
          (dget_eq_none_iff rest m).2 h.1
        simp [hrest, dget]
      · simp [dget, hm, dgetD, dget_dinsert_ne inner m1 m _ hm]

theorem score2_eq_dgetD (mp : SMap) (c m : String) :
    score2 mp c m = dget (dgetD mp c []) m := by
  unfold score2 dgetD
  cases dget mp c <;> simp

theorem score2_mergeStep (out : SMap) (code : String) (models : List (String × ℚ))
    (hmod : keysNodup models) (c m : String) :
    score2 (mergeStep out (code, models)) c m =
      if c = code then
        match dget models m with
        | none => score2 out code m
        | some s => some (max ((score2 out code m).getD 0) s)
      else score2 out c m := by
  by_cases hc : c = code
  · subst hc
    have h1 : score2 (mergeStep out (c, models)) c m
        = dget (mergeInner (dgetD out c []) models) m := by
      simp [mergeStep, score2, dget_dinsert_self]
    rw [h1, dget_mergeInner _ _ hmod, score2_eq_dgetD out c m]
    simp only [if_pos rfl]
    cases dget models m with
    | none => simp
    | some s =>
        simp [dgetD]
  · unfold mergeStep score2
    rw [dget_dinsert_ne _ _ _ _ hc]
    simp [hc]

theorem mem_dinsert {α β : Type} [DecidableEq α] {l : List (α × β)} {k : α} {v : β}
    {q : α × β} (h : q ∈ dinsert l k v) : q ∈ l ∨ q = (k, v) := by
  induction l with
  | nil => simp [dinsert] at h; simp [h]
  | cons hd tl ih =>
      obtain ⟨k', v'⟩ := hd
      by_cases hk : k = k'
      · subst hk
        simp [dinsert] at h
        rcases h with h | h
        · right; simp [h]
        · left; simp [h]
      · simp [dinsert, hk] at h
        rcases h with h | h
        · left; simp [h]
        · rcases ih h with h' | h'
          · left; simp [h']
          · right; exact h'

theorem nonneg_mergeInner {inner : List (String × ℚ)} (models : List (String × ℚ))
    (hi : ∀ q ∈ inner, (0 : ℚ) ≤ q.2) :
    ∀ q ∈ mergeInner inner models, (0 : ℚ) ≤ q.2 := by
  induction models generalizing inner with
  | nil => exact hi
  | cons hd rest ih =>
      obtain ⟨m1, s1⟩ := hd
      have step : mergeInner inner ((m1, s1) :: rest) =
          mergeInner (dinsert inner m1 (max (dgetD inner m1 0) s1)) rest := rfl
      rw [step]
      apply ih
      intro q hq
      rcases mem_dinsert hq with h | h
      · exact hi q h
      · subst h
        have h0 : (0 : ℚ) ≤ dgetD inner m1 0 := by
          unfold dgetD
          cases hg : dget inner m1 with
          | none => simp
          | some s => simpa using hi _ (dget_mem hg)
        exact le_trans h0 (le_max_left _ _)

theorem nonnegS_mergeStep {out : SMap} (hb : nonnegS out)
    (p : String × List (String × ℚ)) : nonnegS (mergeStep out p) := by
  intro pp hpp q hq
  rcases mem_dinsert hpp with h | h
  · exact hb pp h q hq
  · subst h
    refine nonneg_mergeInner p.2 ?_ q hq
    intro r hr
    unfold dgetD at hr
    cases hg : dget out p.1 with
    | none => rw [hg] at hr; simp at hr
    | some inner0 =>
        rw [hg] at hr
        exact hb _ (dget_mem hg) r hr

theorem nonnegS_tail {p : String × List (String × ℚ)} {rest : SMap}
    (h : nonnegS (p :: rest)) : nonnegS rest :=
  fun pp hpp => h pp (List.mem_cons_of_mem _ hpp)

theorem score2_cons_self (code : String) (models : List (String × ℚ)) (rest : SMap)
    (m : String) : score2 (((code, models)) :: rest) code m = dget models m := by
  simp [score2, dget]

theorem score2_cons_ne {c code : String} (models : List (String × ℚ)) (rest : SMap)
    (m : String) (h : c ≠ code) :
    score2 (((code, models)) :: rest) c m = score2 rest c m := by
  simp [score2, dget, h]

theorem score2_merge (add : SMap) : ∀ (base : SMap), keysNodup add →
    (∀ p ∈ add, keysNodup p.2) → nonnegS base → nonnegS add →
    ∀ c m, ((score2 base c m).isSome ∨ (score2 add c m).isSome) →
    score2 (merge_vehicle_maps base add) c m =
      some (max ((score2 base c m).getD 0) ((score2 add c m).getD 0)) := by
  induction add with
  | nil =>
      intro base _ _ hb _ c m hp
      have hb' : (score2 base c m).isSome := by
        rcases hp with h | h
        · exact h
        · simp [score2, dget] at h
      obtain ⟨s, hs⟩ := Option.isSome_iff_exists.1 hb'
      have h0 : (0 : ℚ) ≤ s := nonnegS_score2 hb hs
      have hm : merge_vehicle_maps base [] = base := rfl
      have h2 : score2 ([] : SMap) c m = none := rfl
      rw [hm, hs, h2]
      simp [max_eq_left h0]
  | cons p rest ih =>
      obtain ⟨code, models⟩ := p
      intro base hadd hinner hb ha c m hp
      have hmod : keysNodup models := hinner _ (List.mem_cons_self _ _)
      have hadd2 : code ∉ rest.map Prod.fst ∧ keysNodup rest := by
        unfold keysNodup at hadd ⊢
        simpa using hadd
      have hstep : merge_vehicle_maps base ((code, models) :: rest)
          = merge_vehicle_maps (mergeStep base (code, models)) rest := rfl
      have hb' : nonnegS (mergeStep base (code, models)) := nonnegS_mergeStep hb _
      have ha' : nonnegS rest := nonnegS_tail ha
      have F1 := score2_mergeStep base code models hmod
      by_cases hc : c = code
      · subst hc
        have hAdd_eq : score2 ((c, models) :: rest) c m = dget models m :=
          score2_cons_self c models rest m
        have hRest : score2 rest c m = none := by
          unfold score2
          rw [(dget_eq_none_iff rest c).2 hadd2.1]
          rfl
        cases hdm : dget models m with
        | some s =>
            have hBase' : score2 (mergeStep base (c, models)) c m
                = some (max ((score2 base c m).getD 0) s) := by
              rw [F1 c m]; simp [hdm]
            have hs0 : (0 : ℚ) ≤ s :=
              ha _ (List.mem_cons_self _ _) _ (dget_mem hdm)
            have hIH := ih (mergeStep base (c, models)) hadd2.2
              (fun q hq => hinner q (List.mem_cons_of_mem _ hq)) hb' ha' c m
              (Or.inl (by simp [hBase']))
            rw [hstep, hIH, hBase', hRest, hAdd_eq, hdm]
            simp only [Option.getD_some, Option.getD_none]
            rw [max_eq_left (le_trans hs0 (le_max_right _ _))]
        | none =>
            have hBase' : score2 (mergeStep base (c, models)) c m
                = score2 base c m := by
              rw [F1 c m]; simp [hdm]
            have hbSome : (score2 base c m).isSome := by
              rcases hp with h | h
              · exact h
              · rw [hAdd_eq, hdm] at h; simp at h
            have hIH := ih (mergeStep base (c, models)) hadd2.2
              (fun q hq => hinner q (List.mem_cons_of_mem _ hq)) hb' ha' c m
              (Or.inl (by rw [hBase']; exact hbSome))
            rw [hstep, hIH, hBase', hRest, hAdd_eq, hdm]
      · have hAdd_eq : score2 ((code, models) :: rest) c m = score2 rest c m :=
          score2_cons_ne models rest m hc
        have hBase' : score2 (mergeStep base (code, models)) c m
            = score2 base c m := by
          rw [F1 c m]; simp [hc]
        have hIH := ih (mergeStep base (code, models)) hadd2.2
          (fun q hq => hinner q (List.mem_cons_of_mem _ hq)) hb' ha' c m
          (by rw [hBase']; rw [hAdd_eq] at hp; exact hp)
        rw [hstep, hIH, hBase', hAdd_eq]

theorem idem_aux (add : SMap) : ∀ (out : SMap), keysNodup add →
    (∀ p ∈ add, keysNodup p.2) → (∀ p ∈ add, dget out p.1 = some p.2) →
    ∀ c m, score2 (add.foldl mergeStep out) c m = score2 out c m := by
  induction add with
  | nil => intro out _ _ _ c m; rfl
  | cons p rest ih =>
      obtain ⟨code, models⟩ := p
      intro out hadd hinner hpre c m
      have hmod : keysNodup models := hinner _ (List.mem_cons_self _ _)
      have hadd2 : code ∉ rest.map Prod.fst ∧ keysNodup rest := by
        unfold keysNodup at hadd ⊢
        simpa using hadd
      have hout : dget out code = some models := hpre _ (List.mem_cons_self _ _)
      have S1 : ∀ c' m', score2 (mergeStep out (code, models)) c' m' = score2 out c' m' := by
        intro c' m'
        rw [score2_mergeStep out code models hmod c' m']
        by_cases hc : c' = code
        · subst hc
          have hsc : score2 out c' m' = dget models m' := by
            unfold score2; rw [hout]; rfl
          simp only [if_pos rfl]
          cases hdm : dget models m' with
          | none => simp [hsc, hdm]
          | some s => simp [hsc, hdm]
        · simp [hc]
      have hpre' : ∀ p ∈ rest, dget (mergeStep out (code, models)) p.1 = some p.2 := by
        intro p hp
        have hne : p.1 ≠ code := by
          intro he
          exact hadd2.1 (he ▸ List.mem_map_of_mem Prod.fst hp)
        unfold mergeStep
        rw [dget_dinsert_ne _ _ _ _ hne]
        exact hpre _ (List.mem_cons_of_mem _ hp)
      have hstep : ((code, models) :: rest).foldl mergeStep out
          = rest.foldl mergeStep (mergeStep out (code, models)) := rfl
      rw [hstep,
        ih (mergeStep out (code, models)) hadd2.2
          (fun q hq => hinner q (List.mem_cons_of_mem _ hq)) hpre' c m,
        S1]

/-- C7: for every pair of per-pass score maps and every (category, model)
pair present in either, the merged score produced by `merge_vehicle_maps`
is the max of the two scores (an absent side counting as its default `0`,
below every actual nonnegative score) — never an average or a sum; and
merging a score map with itself leaves every score unchanged
(idempotence). -/
theorem merge_max_and_idempotent (base add mp : SMap)
    (hadd : keysNodup add) (hinner : ∀ p ∈ add, keysNodup p.2)
    (hb : nonnegS base) (ha : nonnegS add)
    (hmp : keysNodup mp) (hmpi : ∀ p ∈ mp, keysNodup p.2) :
    (∀ c m, ((score2 base c m).isSome ∨ (score2 add c m).isSome) →
        score2 (merge_vehicle_maps base add) c m =
          some (max ((score2 base c m).getD 0) ((score2 add c m).getD 0))) ∧
    (∀ c m, score2 (merge_vehicle_maps mp mp) c m = score2 mp c m) := by
  constructor
  · intro c m hp
    exact score2_merge add base hadd hinner hb ha c m hp
  · intro c m
    exact idem_aux mp mp hmp hmpi (dget_self_of_nodup hmp) c m

/-- Witness for C7 at concrete maps: the manual pass scores Fiat Panda at
0.75 in CDMR, the automatic pass at 0.9; the merge keeps 0.9, and merging
a map with itself changes nothing. -/
theorem merge_max_and_idempotent_witness :
    score2 (merge_vehicle_maps
        [("CDMR", [("Fiat Panda", 3/4), ("Opel Corsa", 1/2)])]
        [("CDMR", [("Fiat Panda", 9/10)]), ("EDMR", [("Toyota Aygo", 1)])])
      "CDMR" "Fiat Panda" = some (9/10) ∧
    score2 (merge_vehicle_maps
        [("MBMR", [("Fiat 500", 1)])] [("MBMR", [("Fiat 500", 1)])])
      "MBMR" "Fiat 500" = score2 [("MBMR", [("Fiat 500", 1)])] "MBMR" "Fiat 500" := by
  have h := merge_max_and_idempotent
    [("CDMR", [("Fiat Panda", 3/4), ("Opel Corsa", 1/2)])]
    [("CDMR", [("Fiat Panda", 9/10)]), ("EDMR", [("Toyota Aygo", 1)])]
    [("MBMR", [("Fiat 500", 1)])]
    (by decide) (by decide)
    (by
      intro p hp q hq
      simp only [List.mem_singleton] at hp
      subst hp
      fin_cases hq <;> norm_num)
    (by
      intro p hp q hq
      simp only [List.mem_cons, List.mem_singleton, List.not_mem_nil, or_false] at hp
      rcases hp with rfl | rfl <;> fin_cases hq <;> norm_num)
    (by decide) (by decide)
  constructor
  · have h1 := h.1 "CDMR" "Fiat Panda" (Or.inl (by simp [score2, dget]))
    rw [h1]
    norm_num [score2, dget]
  · exact h.2 "MBMR" "Fiat 500"

/-! ## C8 support: `classify_batches` -/

theorem dget_initBuckets (groups : List String) :
    ∀ (acc : SMap) (c : String),
      (dget (groups.foldl (fun a g => dinsert a (toUpperS g) ([] : List (String × ℚ))) acc)
          c).isSome
        ↔ ((dget acc c).isSome ∨ c ∈ groups.map toUpperS) := by
  induction groups with
  | nil => intro acc c; simp
  | cons g gs ih =>
      intro acc c
      rw [List.foldl_cons, ih]
      by_cases hc : c = toUpperS g
      · simp [dget_dinsert, hc]
      · simp [dget_dinsert, hc]

theorem isSome_processItem (bks : SMap) (batch : List String) (it : RItem) (c : String) :
    (dget (processItem bks batch it) c).isSome = (dget bks c).isSome := by
  cases it with
  | notDict => rfl
  | item mdl sipp scr =>
      cases mdl with
      | none => rfl
      | some m =>
          cases scr with
          | none => rfl
          | some s =>
              by_cases h : (m ∈ batch ∧ (dget bks (toUpperS (sipp.getD ""))).isSome)
              · by_cases h2 : dgetD (dgetD bks (toUpperS (sipp.getD "")) []) m 0 < s
                · have he : processItem bks batch (.item (some m) sipp (some s))
                      = dinsert bks (toUpperS (sipp.getD ""))
                          (dinsert (dgetD bks (toUpperS (sipp.getD "")) []) m s) := by
                    simp [processItem, h, h2]
                  rw [he]
                  by_cases hc : c = toUpperS (sipp.getD "")
                  · subst hc
                    rw [dget_dinsert_self]
                    simp [h.2]
                  · rw [dget_dinsert_ne _ _ _ _ hc]
                · simp [processItem, h, h2]
              · simp [processItem, h]

theorem isSome_processBatch (batch : List String) (parsed : List RItem) :
    ∀ (bks : SMap) (c : String),
      (dget (processBatch bks batch parsed) c).isSome = (dget bks c).isSome := by
  induction parsed with
  | nil => intro bks c; rfl
  | cons it rest ih =>
      intro bks c
      have hstep : processBatch bks batch (it :: rest)
          = processBatch (processItem bks batch it) batch rest := rfl
      rw [hstep, ih, isSome_processItem]

theorem isSome_chunkFold (llm : List String → List RItem) (chunks : List (List String)) :
    ∀ (bks : SMap) (c : String),
      (dget (chunks.foldl (fun b batch => processBatch b batch (llm batch)) bks) c).isSome
        = (dget bks c).isSome := by
  induction chunks with
  | nil => intro bks c; rfl
  | cons ch rest ih =>
      intro bks c
      rw [List.foldl_cons, ih, isSome_processBatch]

theorem classify_keys (groups : List String) (llm : List String → List RItem)
    (carNames : List String) (c : String) :
    (dget (classify_batches groups llm carNames) c).isSome ↔ c ∈ groups.map toUpperS := by
  unfold classify_batches
  rw [isSome_chunkFold]
  rw [dget_initBuckets groups [] c]
  simp

theorem processItem_invalid (groups batch : List String) (bks : SMap) (it : RItem)
    (hK : ∀ c, (dget bks c).isSome ↔ c ∈ groups.map toUpperS)
    (hg : "" ∉ groups.map toUpperS)
    (hv : validItem groups batch it = false) :
    processItem bks batch it = bks := by
  cases it with
  | notDict => rfl
  | item mdl sipp scr =>
      cases mdl with
      | none => rfl
      | some m =>
          cases scr with
          | none => rfl
          | some s =>
              cases sipp with
              | none =>
                  have hko : ¬ (m ∈ batch ∧ (dget bks (toUpperS "")).isSome) := by
                    intro hcon
                    have : toUpperS "" = "" := rfl
                    rw [this] at hcon
                    exact hg ((hK "").1 hcon.2)
                  simp [processItem, hko]
              | some sp =>
                  have hv' : ¬ (m ∈ batch ∧ toUpperS sp ∈ groups.map toUpperS) := by
                    intro hcon
                    have : validItem groups batch (.item (some m) (some sp) (some s)) = true := by
                      simp [validItem, hcon.1, hcon.2]
                    rw [hv] at this
                    exact Bool.false_ne_true this
                  have hko : ¬ (m ∈ batch ∧ (dget bks (toUpperS sp)).isSome) := by
                    intro hcon
                    exact hv' ⟨hcon.1, (hK _).1 hcon.2⟩
                  simp [processItem, hko]

theorem processBatch_filter (groups batch : List String) (parsed : List RItem)
    (hg : "" ∉ groups.map toUpperS) :
    ∀ (bks : SMap), (∀ c, (dget bks c).isSome ↔ c ∈ groups.map toUpperS) →
      processBatch bks batch (parsed.filter (validItem groups batch))
        = processBatch bks batch parsed := by
  induction parsed with
  | nil => intro bks _; rfl
  | cons it rest ih =>
      intro bks hK
      have hK' : ∀ c, (dget (processItem bks batch it) c).isSome ↔ c ∈ groups.map toUpperS := by
        intro c
        rw [isSome_processItem]
        exact hK c
      by_cases hv : validItem groups batch it = true
      · rw [List.filter_cons_of_pos hv]
        have h1 : processBatch bks batch (it :: rest.filter (validItem groups batch))
            = processBatch (processItem bks batch it) batch
                (rest.filter (validItem groups batch)) := rfl
        have h2 : processBatch bks batch (it :: rest)
            = processBatch (processItem bks batch it) batch rest := rfl
        rw [h1, h2]
        exact ih _ hK'
      · have hv' : validItem groups batch it = false := Bool.eq_false_iff.2 hv
        rw [List.filter_cons_of_neg (by simp [hv'])]
        have h2 : processBatch bks batch (it :: rest)
            = processBatch (processItem bks batch it) batch rest := rfl
        rw [h2, processItem_invalid groups batch bks it hK hg hv']
        exact ih bks hK

theorem chunkFold_filter (groups : List String) (llm : List String → List RItem)
    (chunks : List (List String)) (hg : "" ∉ groups.map toUpperS) :
    ∀ (bks : SMap), (∀ c, (dget bks c).isSome ↔ c ∈ groups.map toUpperS) →
      chunks.foldl
          (fun b batch => processBatch b batch ((llm batch).filter (validItem groups batch))) bks
        = chunks.foldl (fun b batch => processBatch b batch (llm batch)) bks := by
  induction chunks with
  | nil => intro bks _; rfl
  | cons ch rest ih =>
      intro bks hK
      rw [List.foldl_cons, List.foldl_cons,
        processBatch_filter groups ch (llm ch) hg bks hK]
      apply ih
      intro c
      rw [isSome_processBatch]
      exact hK c

/-- C8: for every classifier batch response, malformed items (non-records;
missing model, sipp code or numeric score; a sipp code naming no requested
category; a model outside the requested batch) are dropped without failing
the batch — filtering them away first changes nothing — and the resulting
score map has exactly the requested (uppercased) categories as keys, so it
never contains a category absent from the input list. -/
theorem classify_malformed_dropped (groups : List String)
    (hg : ∀ g ∈ groups, toUpperS g ≠ "") :
    (∀ llm carNames,
        classify_batches groups llm carNames =
          classify_batches groups (fun b => (llm b).filter (validItem groups b)) carNames) ∧
    (∀ llm carNames c,
        (dget (classify_batches groups llm carNames) c).isSome ↔ c ∈ groups.map toUpperS) := by
  have hg' : "" ∉ groups.map toUpperS := by
    intro h
    obtain ⟨g, hgm, hge⟩ := List.mem_map.1 h
    exact hg g hgm hge
  constructor
  · intro llm carNames
    unfold classify_batches
    rw [chunkFold_filter groups llm (chunked carNames) hg']
    intro c
    rw [dget_initBuckets groups [] c]
    simp
  · intro llm carNames c
    exact classify_keys groups llm carNames c

/-- Witness for C8: one batch response containing a non-record, an item
with an unknown sipp code, an item missing its model and a valid item;
filtering the malformed items away leaves the resulting score map
unchanged, and the map's only key is the requested category. -/
theorem classify_malformed_dropped_witness :
    (classify_batches ["mbmr"]
        (fun _ => [RItem.notDict,
                   RItem.item (some "Fiat 500") (some "XXXX") (some 1),
                   RItem.item none (some "MBMR") (some 1),
                   RItem.item (some "Fiat 500") (some "mbmr") (some 1)])
        ["Fiat 500"]
      = classify_batches ["mbmr"]
          (fun b =>
            [RItem.notDict,
             RItem.item (some "Fiat 500") (some "XXXX") (some 1),
             RItem.item none (some "MBMR") (some 1),
             RItem.item (some "Fiat 500") (some "mbmr") (some 1)].filter
              (validItem ["mbmr"] b))
          ["Fiat 500"]) ∧
    ((dget (classify_batches ["mbmr"]
        (fun _ => [RItem.notDict,
                   RItem.item (some "Fiat 500") (some "XXXX") (some 1),
                   RItem.item none (some "MBMR") (some 1),
                   RItem.item (some "Fiat 500") (some "mbmr") (some 1)])
        ["Fiat 500"]) "CDMR").isSome ↔ "CDMR" ∈ ["mbmr"].map toUpperS) := by
  have h := classify_malformed_dropped ["mbmr"] (by decide)
  exact ⟨h.1 _ ["Fiat 500"], h.2 _ ["Fiat 500"] "CDMR"⟩

/-! ## C1 support: `cars_by_model` and Policy A -/

theorem dget_carsStep (acc : List (String × CarInfo)) (e : Offer) (model : String) :
    dget (carsStep acc e) model =
      if trimS e.name = model then carsCombine (dget acc model) e
      else dget acc model := by
  by_cases hm : trimS e.name = model
  · subst hm
    simp only [if_pos rfl]
    cases hg : dget acc (trimS e.name) with
    | none => simp [carsStep, carsCombine, hg]
    | some info =>
        cases hp : e.price_eur with
        | none => simp [carsStep, carsCombine, hg, hp]
        | some p =>
            cases hq : info.price_eur with
            | none => simp [carsStep, carsCombine, hg, hp, hq]
            | some q =>
                by_cases hlt : p < q
                · simp [carsStep, carsCombine, hg, hp, hq, hlt]
                · simp [carsStep, carsCombine, hg, hp, hq, hlt]
  · have hne : model ≠ trimS e.name := Ne.symm hm
    simp only [if_neg hm]
    cases hg : dget acc (trimS e.name) with
    | none => simp [carsStep, hg, dget_dinsert, hne]
    | some info =>
        cases hp : e.price_eur with
        | none => simp [carsStep, hg, hp]
        | some p =>
            cases hq : info.price_eur with
            | none => simp [carsStep, hg, hp, hq, dget_dinsert, hne]
            | some q =>
                by_cases hlt : p < q
                · simp [carsStep, hg, hp, hq, hlt, dget_dinsert, hne]
                · simp [carsStep, hg, hp, hq, hlt]

theorem dget_cars_by_model_aux (cars : List Offer) :
    ∀ (acc : List (String × CarInfo)) (model : String),
      dget (cars.foldl carsStep acc) model
        = (cars.filter (fun e => decide (trimS e.name = model))).foldl carsCombine
            (dget acc model) := by
  induction cars with
  | nil => intro acc model; rfl
  | cons e rest ih =>
      intro acc model
      rw [List.foldl_cons, ih]
      by_cases hm : trimS e.name = model
      · rw [List.filter_cons_of_pos (by simp [hm]), List.foldl_cons, dget_carsStep]
        simp [hm]
      · rw [List.filter_cons_of_neg (by simp [hm]), dget_carsStep]
        simp [hm]

theorem dget_cars_by_model (cars : List Offer) (model : String) :
    dget (cars_by_model cars) model
      = (cars.filter (fun e => decide (trimS e.name = model))).foldl carsCombine none :=
  dget_cars_by_model_aux cars [] model

theorem carsCombine_isSome (cur : Option CarInfo) (e : Offer) :
    (carsCombine cur e).isSome := by
  cases cur with
  | none => rfl
  | some info =>
      cases hp : e.price_eur with
      | none => simp [carsCombine, hp]
      | some p =>
          cases hq : info.price_eur with
          | none => simp [carsCombine, hp, hq]
          | some q =>
              by_cases hlt : p < q <;> simp [carsCombine, hp, hq, hlt]

theorem foldl_carsCombine_isSome (offers : List Offer) :
    ∀ (cur : Option CarInfo), (offers ≠ [] ∨ cur.isSome) →
      (offers.foldl carsCombine cur).isSome := by
  induction offers with
  | nil =>
      intro cur h
      rcases h with h | h
      · exact absurd rfl h
      · exact h
  | cons e rest ih =>
      intro cur _
      rw [List.foldl_cons]
      exact ih _ (Or.inr (carsCombine_isSome cur e))

theorem foldl_carsCombine_source (offers : List Offer) :
    ∀ (cur : Option CarInfo) (info : CarInfo),
      offers.foldl carsCombine cur = some info →
      (∃ e ∈ offers, info.link = e.link ∧ info.price_eur = e.price_eur ∧
          info.price_text = e.price_text)
        ∨ cur = some info := by
  induction offers with
  | nil => intro cur info h; right; exact h
  | cons e rest ih =>
      intro cur info h
      rw [List.foldl_cons] at h
      rcases ih _ _ h with hsrc | hcur
      · obtain ⟨e', he', hprop⟩ := hsrc
        exact Or.inl ⟨e', List.mem_cons_of_mem _ he', hprop⟩
      · cases cur with
        | none =>
            have h0 : carsCombine none e = some ⟨e.link, e.price_eur, e.price_text⟩ := rfl
            rw [h0] at hcur
            have := Option.some.inj hcur
            exact Or.inl ⟨e, List.mem_cons_self _ _, by rw [← this]; exact ⟨rfl, rfl, rfl⟩⟩
        | some i0 =>
            cases hp : e.price_eur with
            | none =>
                have h0 : carsCombine (some i0) e = some i0 := by
                  simp [carsCombine, hp]
                rw [h0] at hcur
                exact Or.inr hcur
            | some p =>
                cases hq : i0.price_eur with
                | none =>
                    have h0 : carsCombine (some i0) e
                        = some ⟨e.link, some p, e.price_text⟩ := by
                      simp [carsCombine, hp, hq]
                    rw [h0] at hcur
                    have := Option.some.inj hcur
                    exact Or.inl ⟨e, List.mem_cons_self _ _,
                      by rw [← this, hp]; exact ⟨rfl, rfl, rfl⟩⟩
                | some q =>
                    by_cases hlt : p < q
                    · have h0 : carsCombine (some i0) e
                          = some ⟨e.link, some p, e.price_text⟩ := by
                        simp [carsCombine, hp, hq, hlt]
                      rw [h0] at hcur
                      have := Option.some.inj hcur
                      exact Or.inl ⟨e, List.mem_cons_self _ _,
                        by rw [← this, hp]; exact ⟨rfl, rfl, rfl⟩⟩
                    · have h0 : carsCombine (some i0) e = some i0 := by
                        simp [carsCombine, hp, hq, hlt]
                      rw [h0] at hcur
                      exact Or.inr hcur

theorem foldl_carsCombine_min (offers : List Offer) :
    ∀ (cur : Option CarInfo) (info : CarInfo),
      offers.foldl carsCombine cur = some info →
      (∀ e ∈ offers, ∀ p, e.price_eur = some p →
          ∃ q, info.price_eur = some q ∧ q ≤ p) ∧
      (∀ i0, cur = some i0 → ∀ p, i0.price_eur = some p →
          ∃ q, info.price_eur = some q ∧ q ≤ p) := by
  induction offers with
  | nil =>
      intro cur info h
      constructor
      · intro e he; exact absurd he (List.not_mem_nil e)
      · intro i0 hc p hp
        have h2 : some i0 = some info := by rw [← hc]; exact h
        have h3 : i0 = info := Option.some.inj h2
        exact ⟨p, by rw [← h3, hp], le_refl p⟩
  | cons e rest ih =>
      intro cur info h
      rw [List.foldl_cons] at h
      have ihh := ih _ _ h
      obtain ⟨i1, hi1⟩ := Option.isSome_iff_exists.1 (carsCombine_isSome cur e)
      have hB := ihh.2 i1 hi1
      constructor
      · intro e' he' p hp
        rcases List.mem_cons.1 he' with rfl | hmem
        · have hfact1 : ∃ q1, i1.price_eur = some q1 ∧ q1 ≤ p := by
            cases cur with
            | none =>
                have h0 : carsCombine none e'
                    = some ⟨e'.link, e'.price_eur, e'.price_text⟩ := rfl
                rw [h0] at hi1
                have h3 := Option.some.inj hi1
                exact ⟨p, by rw [← h3, hp], le_refl p⟩
            | some i0 =>
                cases hq : i0.price_eur with
                | none =>
                    have h0 : carsCombine (some i0) e'
                        = some ⟨e'.link, some p, e'.price_text⟩ := by
                      simp [carsCombine, hp, hq]
                    rw [h0] at hi1
                    have h3 := Option.some.inj hi1
                    exact ⟨p, by rw [← h3], le_refl p⟩
                | some q0 =>
                    by_cases hlt : p < q0
                    · have h0 : carsCombine (some i0) e'
                          = some ⟨e'.link, some p, e'.price_text⟩ := by
                        simp [carsCombine, hp, hq, hlt]
                      rw [h0] at hi1
                      have h3 := Option.some.inj hi1
                      exact ⟨p, by rw [← h3], le_refl p⟩
                    · have h0 : carsCombine (some i0) e' = some i0 := by
                        simp [carsCombine, hp, hq, hlt]
                      rw [h0] at hi1
                      have h3 := Option.some.inj hi1
                      exact ⟨q0, by rw [← h3, hq], not_lt.1 hlt⟩
          obtain ⟨q1, hq1, hle⟩ := hfact1
          obtain ⟨q, hq, hle2⟩ := hB q1 hq1
          exact ⟨q, hq, le_trans hle2 hle⟩
        · exact ihh.1 e' hmem p hp
      · intro i0 hc p hp
        rw [hc] at hi1
        have hfact2 : ∃ q1, i1.price_eur = some q1 ∧ q1 ≤ p := by
          cases hep : e.price_eur with
          | none =>
              have h0 : carsCombine (some i0) e = some i0 := by
                simp [carsCombine, hep]
              rw [h0] at hi1
              have h3 := Option.some.inj hi1
              exact ⟨p, by rw [← h3, hp], le_refl p⟩
          | some pe =>
              by_cases hlt : pe < p
              · have h0 : carsCombine (some i0) e
                    = some ⟨e.link, some pe, e.price_text⟩ := by
                  simp [carsCombine, hep, hp, hlt]
                rw [h0] at hi1
                have h3 := Option.some.inj hi1
                exact ⟨pe, by rw [← h3], le_of_lt hlt⟩
              · have h0 : carsCombine (some i0) e = some i0 := by
                  simp [carsCombine, hep, hp, hlt]
                rw [h0] at hi1
                have h3 := Option.some.inj hi1
                exact ⟨p, by rw [← h3, hp], le_refl p⟩
        obtain ⟨q1, hq1, hle⟩ := hfact2
        obtain ⟨q, hq, hle2⟩ := hB q1 hq1
        exact ⟨q, hq, le_trans hle2 hle⟩

theorem maxScore_aux (vs : List Vehicle) :
    ∀ (a : ℚ), (∀ w ∈ vs, w.score ≤ a) →
      vs.foldl (fun b w => max b w.score) a = a := by
  induction vs with
  | nil => intro a _; rfl
  | cons w ws ih =>
      intro a h
      rw [List.foldl_cons, max_eq_left (h w (List.mem_cons_self _ _))]
      exact ih a (fun w' hw' => h w' (List.mem_cons_of_mem _ hw'))

theorem maxScore_head (v : Vehicle) (vs : List Vehicle)
    (h : ∀ w ∈ vs, w.score ≤ v.score) : maxScore (v :: vs) = v.score :=
  maxScore_aux vs v.score h

theorem charsLE_refl (l : List Char) : charsLE l l = true := by
  induction l with
  | nil => rfl
  | cons c cs ih => simp [charsLE, ih]

theorem strLE_refl (s : String) : strLE s s := charsLE_refl s.data

theorem bestVehicle_spec (vehs : List Vehicle) (hne : vehs ≠ [])
    (hs : vehs.Pairwise vehOrder) :
    ∃ v0, bestVehicle vehs = some v0 ∧ v0 ∈ vehs ∧ v0.score = maxScore vehs ∧
      ∀ v ∈ vehs, v.score = maxScore vehs → strLE (toLowerS v0.model) (toLowerS v.model) := by
  cases vehs with
  | nil => exact absurd rfl hne
  | cons v vs =>
      have hpw := List.pairwise_cons.1 hs
      have hsc : ∀ w ∈ vs, w.score ≤ v.score := by
        intro w hw
        rcases hpw.1 w hw with h | h
        · exact le_of_lt h
        · exact h.1.ge
      have hmax : maxScore (v :: vs) = v.score := maxScore_head v vs hsc
      refine ⟨v, ?_, List.mem_cons_self _ _, hmax.symm, ?_⟩
      · unfold bestVehicle
        rw [List.filter_cons_of_pos (by simp [hmax])]
        rfl
      · intro w hw hweq
        rcases List.mem_cons.1 hw with rfl | hmem
        · exact strLE_refl _
        · rcases hpw.1 w hmem with h | h
          · rw [hweq, hmax] at h
            exact absurd h (lt_irrefl _)
          · exact h.2

theorem step5Group_eq (fetch : String → Option Detail)
    (cm : List (String × CarInfo)) (g : Group) (v0 : Vehicle)
    (hne : g.vehicles ≠ []) (hb : bestVehicle g.vehicles = some v0) :
    step5Group fetch cm g
      = (dget cm v0.model).bind (fun info =>
          (fetch info.link).map (fun d =>
            ⟨v0.model, info.link, info.price_eur, info.price_text, d⟩)) := by
  unfold step5Group
  rw [if_neg hne, hb]
  rfl

/-- C1 (amended): for every category with a non-empty scored-assignment
list ordered as `step_3` emits it (descending score, then ascending
case-insensitive model name), Policy A picks the first max-score candidate
in that ordering; among offers whose stripped model name equals the chosen
model, `cars_by_model` keeps an actual offer whose price is the minimum
non-null `price_eur` when one exists — when every such offer has a null
price the kept entry has a null price and resolution still yields a
selection carrying that null price (never a fabricated one), rather than a
null result — and the resolution is exactly the lookup of the chosen model
followed by the detail fetch. Resolution is a pure function of its inputs,
hence repeated runs agree definitionally. -/
theorem policyA_resolution (fetch : String → Option Detail) (cars : List Offer)
    (g : Group) (hne : g.vehicles ≠ []) (hs : g.vehicles.Pairwise vehOrder) :
    ∃ v0, bestVehicle g.vehicles = some v0 ∧ v0 ∈ g.vehicles
      ∧ v0.score = maxScore g.vehicles
      ∧ (∀ v ∈ g.vehicles, v.score = maxScore g.vehicles →
          strLE (toLowerS v0.model) (toLowerS v.model))
      ∧ step5Group fetch (cars_by_model cars) g
          = (dget (cars_by_model cars) v0.model).bind (fun info =>
              (fetch info.link).map (fun d =>
                ⟨v0.model, info.link, info.price_eur, info.price_text, d⟩))
      ∧ (∀ model info, dget (cars_by_model cars) model = some info →
          (∃ e ∈ cars, trimS e.name = model ∧ info.link = e.link
              ∧ info.price_eur = e.price_eur ∧ info.price_text = e.price_text)
          ∧ ∀ e ∈ cars, trimS e.name = model → ∀ p, e.price_eur = some p →
              ∃ q, info.price_eur = some q ∧ q ≤ p)
      ∧ (∀ model, (dget (cars_by_model cars) model).isSome
            ↔ ∃ e ∈ cars, trimS e.name = model) := by
  obtain ⟨v0, hb, hmem, hsc, hmin⟩ := bestVehicle_spec g.vehicles hne hs
  refine ⟨v0, hb, hmem, hsc, hmin, step5Group_eq fetch _ g v0 hne hb, ?_, ?_⟩
  · intro model info hinfo
    rw [dget_cars_by_model] at hinfo
    have hsrc := foldl_carsCombine_source _ _ _ hinfo
    have hmin2 := foldl_carsCombine_min _ _ _ hinfo
    constructor
    · rcases hsrc with ⟨e, he, hprop⟩ | hcur
      · have hmf := List.mem_filter.1 he
        exact ⟨e, hmf.1, of_decide_eq_true hmf.2, hprop.1, hprop.2.1, hprop.2.2⟩
      · exact absurd hcur (by simp)
    · intro e he htrim p hp
      exact hmin2.1 e (List.mem_filter.2 ⟨he, by simp [htrim]⟩) p hp
  · intro model
    rw [dget_cars_by_model]
    constructor
    · intro hsome
      by_cases hf : cars.filter (fun e => decide (trimS e.name = model)) = []
      · rw [hf] at hsome
        simp at hsome
      · obtain ⟨e, he⟩ := List.exists_mem_of_ne_nil _ hf
        have hmf := List.mem_filter.1 he
        exact ⟨e, hmf.1, of_decide_eq_true hmf.2⟩
    · rintro ⟨e, he, htrim⟩
      apply foldl_carsCombine_isSome
      exact Or.inl (List.ne_nil_of_mem (List.mem_filter.2 ⟨he, by simp [htrim]⟩))

/-- Witness for C1 at a concrete input: a group with three assignments
(scores 1, 1, 0, in step_3 order), one offer of the chosen model with a
plain price, and an always-succeeding detail fetch. -/
theorem policyA_resolution_witness :
    ∃ v0, bestVehicle (Group.mk "MBMR" "MANUAL"
          [⟨"alpha", (1 : ℚ)⟩, ⟨"Zebra", 1⟩, ⟨"Beta", 0⟩]).vehicles = some v0
      ∧ v0 ∈ (Group.mk "MBMR" "MANUAL"
          [⟨"alpha", (1 : ℚ)⟩, ⟨"Zebra", 1⟩, ⟨"Beta", 0⟩]).vehicles
      ∧ v0.score = maxScore (Group.mk "MBMR" "MANUAL"
          [⟨"alpha", (1 : ℚ)⟩, ⟨"Zebra", 1⟩, ⟨"Beta", 0⟩]).vehicles
      ∧ (∀ v ∈ (Group.mk "MBMR" "MANUAL"
            [⟨"alpha", (1 : ℚ)⟩, ⟨"Zebra", 1⟩, ⟨"Beta", 0⟩]).vehicles,
          v.score = maxScore (Group.mk "MBMR" "MANUAL"
            [⟨"alpha", (1 : ℚ)⟩, ⟨"Zebra", 1⟩, ⟨"Beta", 0⟩]).vehicles →
          strLE (toLowerS v0.model) (toLowerS v.model))
      ∧ step5Group (fun _ => some ⟨"SupX", "Manual", some 100, none⟩)
            (cars_by_model [⟨"alpha", "L1", some 50, "50"⟩])
            (Group.mk "MBMR" "MANUAL"
              [⟨"alpha", (1 : ℚ)⟩, ⟨"Zebra", 1⟩, ⟨"Beta", 0⟩])
          = (dget (cars_by_model [⟨"alpha", "L1", some 50, "50"⟩]) v0.model).bind
              (fun info => ((fun _ : String => some
                    (Detail.mk "SupX" "Manual" (some 100) none)) info.link).map
                (fun d => ⟨v0.model, info.link, info.price_eur, info.price_text, d⟩))
      ∧ (∀ model info,
          dget (cars_by_model [⟨"alpha", "L1", some 50, "50"⟩]) model = some info →
          (∃ e ∈ [Offer.mk "alpha" "L1" (some 50) "50"], trimS e.name = model
              ∧ info.link = e.link ∧ info.price_eur = e.price_eur
              ∧ info.price_text = e.price_text)
          ∧ ∀ e ∈ [Offer.mk "alpha" "L1" (some 50) "50"], trimS e.name = model →
              ∀ p, e.price_eur = some p → ∃ q, info.price_eur = some q ∧ q ≤ p)
      ∧ (∀ model,
          (dget (cars_by_model [⟨"alpha", "L1", some 50, "50"⟩]) model).isSome
            ↔ ∃ e ∈ [Offer.mk "alpha" "L1" (some 50) "50"], trimS e.name = model) :=
  policyA_resolution (fun _ => some ⟨"SupX", "Manual", some 100, none⟩)
    [⟨"alpha", "L1", some 50, "50"⟩]
    (Group.mk "MBMR" "MANUAL" [⟨"alpha", (1 : ℚ)⟩, ⟨"Zebra", 1⟩, ⟨"Beta", 0⟩])
    (by decide) (by decide)

/-- C1 counterexample to the claim as stated: every offer of the chosen
model has a null `price_eur`, yet the resolution is a selection carrying
the null price (with the fetched detail attached), not `null`. -/
theorem policyA_allnull_counterexample :
    ([Offer.mk "Fiat Panda" "L1" none "N/A"].all (fun e => e.price_eur.isNone)) = true
    ∧ (step5Group (fun _ => some ⟨"SupX", "Manual", some 100, none⟩)
        (cars_by_model [Offer.mk "Fiat Panda" "L1" none "N/A"])
        ⟨"MBMR", "MANUAL", [⟨"Fiat Panda", 1⟩]⟩).isSome = true
    ∧ (step5Group (fun _ => some ⟨"SupX", "Manual", some 100, none⟩)
        (cars_by_model [Offer.mk "Fiat Panda" "L1" none "N/A"])
        ⟨"MBMR", "MANUAL", [⟨"Fiat Panda", 1⟩]⟩).map (fun s => s.price_eur)
      = some none := by
  decide

/-! ## C2 support: stable sort, offer gathering, the Policy B walk -/

theorem mem_insertS {α : Type} (le : α → α → Bool) (x a : α) (l : List α) :
    a ∈ insertS le x l ↔ a = x ∨ a ∈ l := by
  induction l with
  | nil => simp [insertS]
  | cons y ys ih =>
      by_cases h : le x y
      · simp [insertS, h]
      · simp [insertS, h, ih, List.mem_cons]
        tauto

theorem perm_insertS {α : Type} (le : α → α → Bool) (x : α) (l : List α) :
    List.Perm (insertS le x l) (x :: l) := by
  induction l with
  | nil => exact List.Perm.refl _
  | cons y ys ih =>
      by_cases h : le x y
      · simp [insertS, h]
      · simp only [insertS, h, Bool.false_eq_true, if_false]
        exact (ih.cons y).trans (List.Perm.swap x y ys)

theorem perm_sortByB {α : Type} (le : α → α → Bool) (l : List α) :
    List.Perm (sortByB le l) l := by
  induction l with
  | nil => exact List.Perm.refl _
  | cons x xs ih =>
      have h1 : sortByB le (x :: xs) = insertS le x (sortByB le xs) := rfl
      rw [h1]
      exact (perm_insertS le x (sortByB le xs)).trans (ih.cons x)

theorem pairwise_insertS {α : Type} (le : α → α → Bool)
    (htot : ∀ a b, le a b = true ∨ le b a = true)
    (htr : ∀ a b c, le a b = true → le b c = true → le a c = true)
    (x : α) (l : List α) (hp : l.Pairwise (fun a b => le a b = true)) :
    (insertS le x l).Pairwise (fun a b => le a b = true) := by
  induction l with
  | nil => simp [insertS]
  | cons y ys ih =>
      have hpc := List.pairwise_cons.1 hp
      by_cases h : le x y
      · simp only [insertS, h, if_true]
        refine List.pairwise_cons.2 ⟨?_, hp⟩
        intro z hz
        rcases List.mem_cons.1 hz with rfl | hz'
        · exact h
        · exact htr x y z h (hpc.1 z hz')
      · simp only [insertS, h, Bool.false_eq_true, if_false]
        refine List.pairwise_cons.2 ⟨?_, ih hpc.2⟩
        intro z hz
        rcases (mem_insertS le x z ys).1 hz with rfl | hz'
        · rcases htot z y with h' | h'
          · exact absurd h' h
          · exact h'
        · exact hpc.1 z hz'

theorem pairwise_sortByB {α : Type} (le : α → α → Bool)
    (htot : ∀ a b, le a b = true ∨ le b a = true)
    (htr : ∀ a b c, le a b = true → le b c = true → le a c = true)
    (l : List α) : (sortByB le l).Pairwise (fun a b => le a b = true) := by
  induction l with
  | nil => simp [sortByB]
  | cons x xs ih => exact pairwise_insertS le htot htr x (sortByB le xs) ih

theorem priceLEB_iff (a b : Offer) : priceLEB a b = true ↔ priceKey a ≤ priceKey b := by
  unfold priceLEB priceKey
  cases ha : a.price_eur <;> cases hb : b.price_eur <;> simp

theorem priceLEB_total (a b : Offer) : priceLEB a b = true ∨ priceLEB b a = true := by
  unfold priceLEB
  cases ha : a.price_eur <;> cases hb : b.price_eur <;> simp
  exact le_total _ _

theorem priceLEB_trans (a b c : Offer) (h1 : priceLEB a b = true)
    (h2 : priceLEB b c = true) : priceLEB a c = true := by
  unfold priceLEB at h1 h2 ⊢
  cases ha : a.price_eur <;> cases hb : b.price_eur <;> cases hc : c.price_eur <;>
    simp_all
  exact le_trans h1 h2

theorem dgetD_offersByModel_aux (cars : List Offer) :
    ∀ (acc : List (String × List Offer)) (m : String),
      dgetD (cars.foldl
          (fun a car => dinsert a (trimS car.name) (dgetD a (trimS car.name) [] ++ [car]))
          acc) m []
        = dgetD acc m [] ++ cars.filter (fun e => decide (trimS e.name = m)) := by
  induction cars with
  | nil => intro acc m; simp
  | cons car rest ih =>
      intro acc m
      rw [List.foldl_cons, ih]
      by_cases hm : trimS car.name = m
      · rw [List.filter_cons_of_pos (by simp [hm])]
        unfold dgetD
        rw [hm, dget_dinsert_self]
        simp
      · rw [List.filter_cons_of_neg (by simp [hm])]
        unfold dgetD
        rw [dget_dinsert_ne _ _ _ _ (Ne.symm hm)]

theorem dgetD_offersByModel (cars : List Offer) (m : String) :
    dgetD (offersByModel cars) m [] = cars.filter (fun e => decide (trimS e.name = m)) := by
  have h := dgetD_offersByModel_aux cars [] m
  unfold offersByModel
  rw [h]
  rfl

theorem dget_mapValues {β γ : Type} (f : β → γ) (l : List (String × β)) (k : String) :
    dget (l.map (fun p => (p.1, f p.2))) k = (dget l k).map f := by
  induction l with
  | nil => rfl
  | cons p rest ih =>
      obtain ⟨k', v⟩ := p
      by_cases hk : k = k' <;> simp [dget, hk, ih]

theorem gather_eq_join_aux {α β : Type} (f : β → List α) (cands : List β) :
    ∀ (acc : List α),
      cands.foldl (fun a mdl => a ++ f mdl) acc = acc ++ (cands.map f).flatten := by
  induction cands with
  | nil => intro acc; simp
  | cons c cs ih =>
      intro acc
      rw [List.foldl_cons, ih]
      simp [List.append_assoc]

theorem filter_append_perm_disjoint {α : Type} (p q : α → Bool) (l : List α)
    (hd : ∀ x ∈ l, ¬(p x = true ∧ q x = true)) :
    List.Perm (l.filter p ++ l.filter q) (l.filter (fun x => p x || q x)) := by
  induction l with
  | nil => simp
  | cons x rest ih =>
      have hd' : ∀ y ∈ rest, ¬(p y = true ∧ q y = true) :=
        fun y hy => hd y (List.mem_cons_of_mem _ hy)
      by_cases hp : p x = true
      · have hq : ¬ q x = true := fun hq => hd x (List.mem_cons_self _ _) ⟨hp, hq⟩
        rw [List.filter_cons_of_pos hp, List.filter_cons_of_neg hq,
          List.filter_cons_of_pos (by simp [hp])]
        exact (ih hd').cons x
      · by_cases hq : q x = true
        · rw [List.filter_cons_of_neg hp, List.filter_cons_of_pos hq,
            List.filter_cons_of_pos (by simp [hq])]
          exact List.perm_middle.trans ((ih hd').cons x)
        · rw [List.filter_cons_of_neg hp, List.filter_cons_of_neg hq,
            List.filter_cons_of_neg (by simp [hp, hq])]
          exact ih hd'

theorem join_filter_perm (cars : List Offer) :
    ∀ (cands : List String), cands.Nodup →
      List.Perm
        ((cands.map (fun m => cars.filter (fun e => decide (trimS e.name = m)))).flatten)
        (cars.filter (fun e => decide (trimS e.name ∈ cands))) := by
  intro cands
  induction cands with
  | nil => simp
  | cons c cs ih =>
      intro hnd
      have hnd' := List.nodup_cons.1 hnd
      have h1 : ((c :: cs).map
            (fun m => cars.filter (fun e => decide (trimS e.name = m)))).flatten
          = cars.filter (fun e => decide (trimS e.name = c))
            ++ (cs.map (fun m => cars.filter (fun e => decide (trimS e.name = m)))).flatten := by
        simp
      rw [h1]
      have h2 := (ih hnd'.2).append_left (cars.filter (fun e => decide (trimS e.name = c)))
      refine h2.trans ?_
      have h3 := filter_append_perm_disjoint
        (fun e => decide (trimS e.name = c)) (fun e => decide (trimS e.name ∈ cs)) cars ?_
      · refine h3.trans ?_
        have h4 : ∀ e : Offer,
            ((decide (trimS e.name = c) || decide (trimS e.name ∈ cs)))
              = decide (trimS e.name ∈ c :: cs) := by
          intro e
          by_cases h5 : trimS e.name = c <;> by_cases h6 : trimS e.name ∈ cs <;>
            simp [h5, h6]
        rw [List.filter_congr (fun e _ => h4 e)]
      · intro e _ hcon
        have h5 := of_decide_eq_true hcon.1
        have h6 := of_decide_eq_true hcon.2
        exact hnd'.1 (h5 ▸ h6)

theorem join_map_perm {β : Type} (f g : β → List Offer)
    (hfg : ∀ b, List.Perm (f b) (g b)) (cands : List β) :
    List.Perm (cands.map f).flatten (cands.map g).flatten := by
  induction cands with
  | nil => simp
  | cons c cs ih =>
      simp only [List.map_cons, List.flatten_cons]
      exact (hfg c).append ih

theorem walkOffers_eq_findSome (fetch : String → FetchResult) (g : Group) :
    ∀ (l : List Offer), walkOffers fetch g l = l.findSome? (selFromOffer fetch g) := by
  intro l
  induction l with
  | nil => rfl
  | cons o rest ih =>
      cases hf : fetch o.link with
      | ok d =>
          by_cases hacc : acceptOffer g d = true
          · simp [walkOffers, List.findSome?_cons, selFromOffer, hf, hacc]
          · simp [walkOffers, List.findSome?_cons, selFromOffer, hf, hacc, ih]
      | timeout => simp [walkOffers, List.findSome?_cons, selFromOffer, hf, ih]
      | redirect => simp [walkOffers, List.findSome?_cons, selFromOffer, hf, ih]
      | nodetail => simp [walkOffers, List.findSome?_cons, selFromOffer, hf, ih]

/-- C2: Policy B per category — candidate models are the assignments with
score at least the 0.9 threshold; all offers of all candidate models are
gathered into one list sorted ascending by `price_eur` with nulls last
(treated as plus infinity); the walk strictly follows that order and
selects the first offer passing the acceptance test (`findSome?` of the
per-offer selection, which skips fetch failures and rejected offers and
never retries); exhausting the list with no acceptance yields `none`, not
an error. -/
theorem policyB_sequential (fetch : String → FetchResult) (cars : List Offer)
    (g : Group) (hnd : (candidateModels g).Nodup) :
    (groupOffers ((offersByModel cars).map (fun p => (p.1, sortOffers p.2))) g).Pairwise
        (fun a b => priceKey a ≤ priceKey b)
    ∧ List.Perm
        (groupOffers ((offersByModel cars).map (fun p => (p.1, sortOffers p.2))) g)
        (cars.filter (fun e => decide (trimS e.name ∈ candidateModels g)))
    ∧ (candidateModels g ≠ [] →
        step5v2Group fetch ((offersByModel cars).map (fun p => (p.1, sortOffers p.2))) g
          = (groupOffers ((offersByModel cars).map (fun p => (p.1, sortOffers p.2)))
                g).findSome? (selFromOffer fetch g))
    ∧ ((∀ o ∈ groupOffers ((offersByModel cars).map (fun p => (p.1, sortOffers p.2))) g,
          selFromOffer fetch g o = none) →
        step5v2Group fetch ((offersByModel cars).map (fun p => (p.1, sortOffers p.2))) g
          = none) := by
  have hobm : ∀ m, dgetD ((offersByModel cars).map (fun p => (p.1, sortOffers p.2))) m []
      = sortOffers (cars.filter (fun e => decide (trimS e.name = m))) := by
    intro m
    have hf := dgetD_offersByModel cars m
    unfold dgetD at hf ⊢
    rw [dget_mapValues]
    cases h : dget (offersByModel cars) m with
    | none =>
        rw [h] at hf
        simp only [Option.getD_none] at hf
        simp [← hf, sortOffers, sortByB]
    | some l =>
        rw [h] at hf
        simp only [Option.getD_some] at hf
        simp [← hf]
  have hgather : groupOffers ((offersByModel cars).map (fun p => (p.1, sortOffers p.2))) g
      = sortOffers (((candidateModels g).map
          (fun m => sortOffers (cars.filter (fun e => decide (trimS e.name = m))))).flatten) := by
    unfold groupOffers
    have h1 := gather_eq_join_aux
      (fun m => dgetD ((offersByModel cars).map (fun p => (p.1, sortOffers p.2))) m [])
      (candidateModels g) []
    rw [h1]
    simp only [List.nil_append]
    rw [List.map_congr_left (fun m _ => hobm m)]
  refine ⟨?_, ?_, ?_, ?_⟩
  · rw [hgather]
    exact (pairwise_sortByB priceLEB priceLEB_total priceLEB_trans _).imp
      (fun h => (priceLEB_iff _ _).1 h)
  · rw [hgather]
    refine (perm_sortByB priceLEB _).trans ?_
    refine (join_map_perm _ _ (fun m => perm_sortByB priceLEB _) _).trans ?_
    exact join_filter_perm cars (candidateModels g) hnd
  · intro hne
    unfold step5v2Group
    rw [if_neg hne, walkOffers_eq_findSome]
  · intro hall
    by_cases hc : candidateModels g = []
    · unfold step5v2Group
      rw [if_pos hc]
    · unfold step5v2Group
      rw [if_neg hc, walkOffers_eq_findSome]
      exact List.findSome?_eq_none_iff.2 hall

/-- Witness for C2 at the spec's sequentiality example: offers A (50),
B (40) and C (45); B's detail page shows an automatic transmission and the
category requires MANUAL, so B is rejected and C — the next in price
order — is selected, never the cheapest B and never A. -/
theorem policyB_sequential_witness :
    ((groupOffers ((offersByModel
          [⟨"A", "LA", some 50, "50"⟩, ⟨"B", "LB", some 40, "40"⟩,
           ⟨"C", "LC", some 45, "45"⟩]).map (fun p => (p.1, sortOffers p.2)))
        ⟨"MBMR", "MANUAL", [⟨"A", (1 : ℚ)⟩, ⟨"B", 1⟩, ⟨"C", 1⟩]⟩).Pairwise
        (fun a b => priceKey a ≤ priceKey b))
    ∧ (step5v2Group
        (fun link => if link = "LB" then .ok ⟨"SupY", "Automatic", some 40, none⟩
          else .ok ⟨"SupX", "Manual", some 45, none⟩)
        ((offersByModel
          [⟨"A", "LA", some 50, "50"⟩, ⟨"B", "LB", some 40, "40"⟩,
           ⟨"C", "LC", some 45, "45"⟩]).map (fun p => (p.1, sortOffers p.2)))
        ⟨"MBMR", "MANUAL", [⟨"A", (1 : ℚ)⟩, ⟨"B", 1⟩, ⟨"C", 1⟩]⟩
      = some ⟨"C", "LC", some 45, "45", ⟨"SupX", "Manual", some 45, none⟩⟩) := by
  have h := policyB_sequential
    (fun link => if link = "LB" then .ok ⟨"SupY", "Automatic", some 40, none⟩
      else .ok ⟨"SupX", "Manual", some 45, none⟩)
    [⟨"A", "LA", some 50, "50"⟩, ⟨"B", "LB", some 40, "40"⟩, ⟨"C", "LC", some 45, "45"⟩]
    ⟨"MBMR", "MANUAL", [⟨"A", (1 : ℚ)⟩, ⟨"B", 1⟩, ⟨"C", 1⟩]⟩
    (by decide)
  refine ⟨h.1, ?_⟩
  rw [h.2.2.1 (by decide)]
  decide

/-- C3 is a code bug: `step_5_v2.py` lower-cases only the supplier name and
compares it against the unmodified `EXCLUDE_SUPPLIERS` list, so the shipped
entry "Sicily By Car" can never match and the acceptance test passes for an
offer of the excluded supplier, contradicting the documented
case-insensitive exclusion (`step_5_v2.py` line 42). -/
theorem acceptOffer_case_bug :
    acceptOffer ⟨"MBMR", "MANUAL", []⟩ ⟨"Sicily By Car", "Manual", none, none⟩ = true
    ∧ (EXCLUDE_SUPPLIERS.map toLowerS).contains (toLowerS "Sicily By Car") = true := by
  decide

/-- C4 (amended): `gen_output_file` implements the claimed normalization —
positive `pay_on_arrival` gives `round(payOnArrival - 1, 2)`, otherwise a
numeric `pay_now` gives `round(payNow * (1 - 0.30) - 1, 2)` with
`BROKER_FEE = 0.30`, negatives clamp to `0.00`, and the spec's examples
hold — while `build_csv_for_location` (workflow_ui) routes on truthiness
(any non-zero `pay_on_arrival`, even negative, takes the arrival branch)
and applies no clamping. -/
theorem price_normalization (a n : ℚ) (pn : Option ℚ) :
    (0 < a → genPrice pn (some a)
        = some (if round2 (a - 1) < 0 then 0 else round2 (a - 1)))
    ∧ (a ≤ 0 → genPrice (some n) (some a)
        = some (if round2 (n * (1 - BROKER_FEE) - 1) < 0 then 0
            else round2 (n * (1 - BROKER_FEE) - 1)))
    ∧ genPrice (some n) none
        = some (if round2 (n * (1 - BROKER_FEE) - 1) < 0 then 0
            else round2 (n * (1 - BROKER_FEE) - 1))
    ∧ genPrice pn (some 101) = some 100
    ∧ genPrice (some 100) (some 0) = some 69
    ∧ (a ≠ 0 → uiPrice pn (some a) = some (round2 (a - 1)))
    ∧ (n ≠ 0 → uiPrice (some n) (some 0) = some (round2 (n * (7/10) - 1)))
    ∧ uiPrice none none = none := by
  refine ⟨?_, ?_, ?_, ?_, ?_, ?_, ?_, rfl⟩
  · intro ha
    simp [genPrice, ha]
  · intro ha
    simp [genPrice, not_lt.2 ha]
  · simp [genPrice]
  · have h1 : genPrice pn (some 101)
        = some (if round2 ((101 : ℚ) - 1) < 0 then 0 else round2 ((101 : ℚ) - 1)) := by
      simp [genPrice, show (0 : ℚ) < 101 by norm_num]
    rw [h1]
    decide
  · decide
  · intro ha
    simp [uiPrice, ha]
  · intro hn
    simp [uiPrice, hn]


/-- Witness for C4 at `a = 101`, `n = 100`: both hypotheses and the
truthiness branches are exercised at concrete values. -/
theorem price_normalization_witness :
    genPrice (some 100) (some 101)
        = some (if round2 ((101 : ℚ) - 1) < 0 then 0 else round2 ((101 : ℚ) - 1))
    ∧ genPrice (some 100) (some 0)
        = some (if round2 ((100 : ℚ) * (1 - BROKER_FEE) - 1) < 0 then 0
            else round2 ((100 : ℚ) * (1 - BROKER_FEE) - 1))
    ∧ uiPrice (some 100) (some 101) = some (round2 ((101 : ℚ) - 1)) := by
  have h := price_normalization 101 100 (some 100)
  refine ⟨h.1 (by norm_num), ?_, h.2.2.2.2.2.1 (by norm_num)⟩
  have h0 := price_normalization 0 100 (some 100)
  exact h0.2.1 (by norm_num)

/-- C4 counterexample to the claim as stated: in `build_csv_for_location`
a computed negative final price is recorded as is — `pay_on_arrival = 0.5`
gives `-0.50` and a negative `pay_on_arrival = -5` is used directly giving
`-6.00` — the clamp to `0.00` exists only in `gen_output_file`. -/
theorem ui_no_clamp_counterexample :
    uiPrice none (some (1/2)) = some (-(1/2))
    ∧ uiPrice (some 100) (some (-5)) = some (-6)
    ∧ genPrice none (some (1/2)) = some 0 := by
  decide

/-- C5 (amended): with `pay_on_arrival` null or non-positive and `pay_now`
absent, no price is recorded in either implementation; but in
`gen_output_file` a present-and-zero `pay_now` is numeric, so the clamp of
`round(0*0.7-1, 2) = -1` records `0.00` in the cell (a recorded zero, not a
blank); `build_csv_for_location` treats zero like absent (`or 0` plus
truthiness) and leaves the cell blank, but routes any non-zero
`pay_on_arrival` — including negative ones — to the arrival branch instead
of the `pay_now` branch. -/
theorem price_unresolvable_blank (a n : ℚ) :
    (a ≤ 0 → genPrice none (some a) = none)
    ∧ genPrice none none = none
    ∧ (a ≤ 0 → genPrice (some 0) (some a) = some 0)
    ∧ uiPrice (some 0) (some 0) = none
    ∧ uiPrice none (some 0) = none
    ∧ uiPrice none none = none
    ∧ (a ≠ 0 → uiPrice (some n) (some a) = some (round2 (a - 1))) := by
  refine ⟨?_, rfl, ?_, by decide, by decide, rfl, ?_⟩
  · intro ha
    simp [genPrice, not_lt.2 ha]
  · intro ha
    have h1 : genPrice (some 0) (some a)
        = some (if round2 ((0 : ℚ) * (1 - BROKER_FEE) - 1) < 0 then 0
            else round2 ((0 : ℚ) * (1 - BROKER_FEE) - 1)) := by
      simp [genPrice, not_lt.2 ha]
    rw [h1]
    decide
  · intro ha
    simp [uiPrice, ha]

/-- Witness for C5 at `a = 0`, `n = 3`: the `pay_now` branch is taken and
the zero/absent cases record nothing. -/
theorem price_unresolvable_blank_witness :
    genPrice none (some 0) = none
    ∧ genPrice (some 0) (some 0) = some 0
    ∧ uiPrice (some 3) (some 0) = some (round2 ((3 : ℚ) * (7/10) - 1)) := by
  have h := price_unresolvable_blank 0 3
  have h' := price_normalization 0 3 (some 3)
  exact ⟨h.1 (by norm_num), h.2.2.1 (by norm_num), h'.2.2.2.2.2.2.1 (by norm_num)⟩

/-- C5 counterexample to the claim as stated: `pay_on_arrival = 0` and
`pay_now = 0` yields a recorded `0.00` in `gen_output_file` (the clamp of
`-1.00`), not a blank cell; only the workflow_ui variant leaves it blank. -/
theorem gen_zero_recorded_counterexample :
    genPrice (some 0) (some 0) = some 0
    ∧ uiPrice (some 0) (some 0) = none := by
  decide

/-! ## C6 support: extra-period transformation -/

theorem listMax_spec (bs : List Int) : ∀ (b : Int),
    listMax b bs ∈ b :: bs ∧ ∀ x ∈ b :: bs, x ≤ listMax b bs := by
  induction bs with
  | nil =>
      intro b
      constructor
      · simp [listMax]
      · intro x hx
        simp [listMax] at hx ⊢
        simp [hx]
  | cons y ys ih =>
      intro b
      have hstep : listMax b (y :: ys) = listMax (max b y) ys := rfl
      obtain ⟨ihm, ihb⟩ := ih (max b y)
      constructor
      · rw [hstep]
        rcases List.mem_cons.1 ihm with he | he
        · rcases max_choice b y with hc | hc
          · rw [he, hc]; exact List.mem_cons_self _ _
          · rw [he, hc]
            exact List.mem_cons_of_mem _ (List.mem_cons_self _ _)
        · exact List.mem_cons_of_mem _ (List.mem_cons_of_mem _ he)
      · intro x hx
        rw [hstep]
        have hmb : max b y ≤ listMax (max b y) ys := ihb _ (List.mem_cons_self _ _)
        rcases List.mem_cons.1 hx with rfl | hx'
        · exact le_trans (le_max_left _ _) hmb
        · rcases List.mem_cons.1 hx' with rfl | hx''
          · exact le_trans (le_max_right _ _) hmb
          · exact ihb _ (List.mem_cons_of_mem _ hx'')

theorem processExtraStep_ok (bases : List Int) (df : DFrame) (ep : Int)
    (hcol : (Col.per ep) ∈ df.cols) (b : Int) (bs : List Int)
    (hfil : bases.filter
        (fun b' => decide (b' < ep) && decide ((Col.per b') ∈ df.cols)) = b :: bs) :
    processExtraStep bases df ep = .ok
      { cols := df.cols
        cell := fun r d =>
          if d = ep then
            match df.cell r ep, df.cell r (listMax b bs) with
            | some x, some y => some ((x - y) / ((ep : ℚ) - ((listMax b bs : Int) : ℚ)))
            | _, _ => none
          else df.cell r d } := by
  unfold processExtraStep
  rw [if_pos hcol, hfil]

theorem processExtraStep_ok_inv (bases : List Int) (df : DFrame) (ep : Int)
    (df1 : DFrame) (h : processExtraStep bases df ep = .ok df1) :
    df1.cols = df.cols ∧ bases.filter
      (fun b => decide (b < ep) && decide ((Col.per b) ∈ df.cols)) ≠ [] := by
  unfold processExtraStep at h
  by_cases hc : (Col.per ep) ∈ df.cols
  · rw [if_pos hc] at h
    cases hfc : bases.filter
        (fun b => decide (b < ep) && decide ((Col.per b) ∈ df.cols)) with
    | nil =>
        rw [hfc] at h
        exact Except.noConfusion h
    | cons b bs =>
        rw [hfc] at h
        have h2 := Except.ok.inj h
        constructor
        · rw [← h2]
        · simp
  · rw [if_neg hc] at h
    exact Except.noConfusion h

theorem marginalCell_congr (bases : List Int) (df1 df2 : DFrame) (r : String) (ep : Int)
    (hcols : df1.cols = df2.cols)
    (hep : df1.cell r ep = df2.cell r ep)
    (hbase : ∀ b ∈ bases, df1.cell r b = df2.cell r b) :
    marginalCell bases df1 r ep = marginalCell bases df2 r ep := by
  unfold marginalCell
  rw [hcols]
  cases hfil : bases.filter
      (fun b => decide (b < ep) && decide ((Col.per b) ∈ df2.cols)) with
  | nil => exact hep
  | cons b bs =>
      have hmem : listMax b bs ∈ bases := by
        have h1 := (listMax_spec bs b).1
        rw [← hfil] at h1
        exact (List.mem_filter.1 h1).1
      have hb := hbase _ hmem
      simp only [hep, hb]

theorem foldExtras_spec (bases : List Int) : ∀ (extras : List Int) (df : DFrame),
    extras.Nodup → (∀ ep ∈ extras, ep ∉ bases) →
    (∀ ep ∈ extras, (Col.per ep) ∈ df.cols ∧
        bases.filter (fun b => decide (b < ep) && decide ((Col.per b) ∈ df.cols)) ≠ []) →
    ∃ df2, extras.foldlM (processExtraStep bases) df = .ok df2
      ∧ df2.cols = df.cols
      ∧ (∀ r d, d ∉ extras → df2.cell r d = df.cell r d)
      ∧ (∀ r ep, ep ∈ extras → df2.cell r ep = marginalCell bases df r ep) := by
  intro extras
  induction extras with
  | nil =>
      intro df _ _ _
      exact ⟨df, rfl, rfl, fun r d _ => rfl,
        fun r ep h => absurd h (List.not_mem_nil ep)⟩
  | cons ep rest ih =>
      intro df hnd hdisj hcond
      obtain ⟨hcol, hfilne⟩ := hcond ep (List.mem_cons_self _ _)
      have hnd2 := List.nodup_cons.1 hnd
      cases hfc : bases.filter
          (fun b => decide (b < ep) && decide ((Col.per b) ∈ df.cols)) with
      | nil => exact absurd hfc hfilne
      | cons b bs =>
          have hstep := processExtraStep_ok bases df ep hcol b bs hfc
          set df1 : DFrame :=
            { cols := df.cols
              cell := fun r d =>
                if d = ep then
                  match df.cell r ep, df.cell r (listMax b bs) with
                  | some x, some y =>
                      some ((x - y) / ((ep : ℚ) - ((listMax b bs : Int) : ℚ)))
                  | _, _ => none
                else df.cell r d } with hdf1
          have hcell1 : ∀ r d, d ≠ ep → df1.cell r d = df.cell r d := by
            intro r d hd
            simp [hdf1, hd]
          have hcols1 : df1.cols = df.cols := rfl
          have hcond' : ∀ ep' ∈ rest, (Col.per ep') ∈ df1.cols ∧
              bases.filter
                (fun b' => decide (b' < ep') && decide ((Col.per b') ∈ df1.cols)) ≠ [] := by
            intro ep' hep'
            rw [hcols1]
            exact hcond ep' (List.mem_cons_of_mem _ hep')
          obtain ⟨df2, hfold2, hcols2, hframe2, hmarg2⟩ :=
            ih df1 hnd2.2 (fun e he => hdisj e (List.mem_cons_of_mem _ he)) hcond'
          have hfold : (ep :: rest).foldlM (processExtraStep bases) df
              = Except.ok df2 := by
            have h1 : (ep :: rest).foldlM (processExtraStep bases) df
                = (processExtraStep bases df ep).bind
                    (fun d => rest.foldlM (processExtraStep bases) d) := rfl
            rw [h1, hstep]
            exact hfold2
          refine ⟨df2, hfold, by rw [hcols2], ?_, ?_⟩
          · intro r d hd
            have hd1 : d ∉ rest := fun hh => hd (List.mem_cons_of_mem _ hh)
            have hd2 : d ≠ ep := fun hh => hd (hh ▸ List.mem_cons_self _ _)
            rw [hframe2 r d hd1, hcell1 r d hd2]
          · intro r e he
            rcases List.mem_cons.1 he with rfl | he'
            · have he1 : e ∉ rest := hnd2.1
              rw [hframe2 r e he1]
              have h2 : df1.cell r e
                  = match df.cell r e, df.cell r (listMax b bs) with
                    | some x, some y =>
                        some ((x - y) / ((e : ℚ) - ((listMax b bs : Int) : ℚ)))
                    | _, _ => none := by
                simp [hdf1]
              rw [h2]
              unfold marginalCell
              rw [hfc]
            · rw [hmarg2 r e he']
              apply marginalCell_congr
              · exact hcols1
              · have hne : e ≠ ep := by
                  intro hh
                  exact hnd2.1 (hh ▸ he')
                exact hcell1 r e hne
              · intro b' hb'
                have hne : b' ≠ ep := by
                  intro hh
                  exact hdisj ep (List.mem_cons_self _ _) (hh ▸ hb')
                exact hcell1 r b' hne

theorem foldExtras_error (bases : List Int) : ∀ (extras : List Int) (df : DFrame),
    (∃ ep ∈ extras, bases.filter
        (fun b => decide (b < ep) && decide ((Col.per b) ∈ df.cols)) = []) →
    isError (extras.foldlM (processExtraStep bases) df) = true := by
  intro extras
  induction extras with
  | nil =>
      intro df h
      obtain ⟨ep, hmem, _⟩ := h
      exact absurd hmem (List.not_mem_nil ep)
  | cons ep rest ih =>
      intro df h
      obtain ⟨ep0, hmem, hfil⟩ := h
      have h1 : (ep :: rest).foldlM (processExtraStep bases) df
          = (processExtraStep bases df ep).bind
              (fun d => rest.foldlM (processExtraStep bases) d) := rfl
      cases hstep : processExtraStep bases df ep with
      | error msg =>
          rw [h1, hstep]
          rfl
      | ok df1 =>
          obtain ⟨hcols1, hfilne⟩ := processExtraStep_ok_inv bases df ep df1 hstep
          rcases List.mem_cons.1 hmem with rfl | hmem'
          · exact absurd hfil hfilne
          · rw [h1, hstep]
            have h2 : (Except.ok df1).bind
                (fun d => rest.foldlM (processExtraStep bases) d)
                = rest.foldlM (processExtraStep bases) df1 := rfl
            rw [h2]
            apply ih df1
            refine ⟨ep0, hmem', ?_⟩
            rw [hcols1]
            exact hfil

/-- C6 (amended): in `process_extra_periods`, when every extra period has a
column and a preceding base-period column, the run succeeds: each extra
column holds `(price[ep] - price[prev]) / (ep - prev)` per row with `prev`
the largest base period strictly below `ep` present as a column, a blank
whenever either price is missing, untouched columns keep their values, and
every extra column is relabelled; when some extra period has no preceding
base-period column the function raises `ValueError` (the error case of the
result). `build_csv_for_location_` (workflow_ui) instead silently skips
such an extra period, leaving its numeric column in place (see the
counterexample). -/
theorem extra_periods_spec (bases extras : List Int) (df : DFrame)
    (hnd : extras.Nodup) (hdisj : ∀ ep ∈ extras, ep ∉ bases) :
    ((∀ ep ∈ extras, (Col.per ep) ∈ df.cols ∧
        ∃ b ∈ bases, b < ep ∧ (Col.per b) ∈ df.cols) →
      ∃ df2, process_extra_periods bases extras df = .ok df2
        ∧ df2.cols = renameExtras extras df.cols
        ∧ (∀ r d, d ∉ extras → df2.cell r d = df.cell r d)
        ∧ (∀ ep ∈ extras, ∃ prev, prev ∈ bases ∧ prev < ep
            ∧ (Col.per prev) ∈ df.cols
            ∧ (∀ b ∈ bases, b < ep → (Col.per b) ∈ df.cols → b ≤ prev)
            ∧ ∀ r, df2.cell r ep
                = match df.cell r ep, df.cell r prev with
                  | some x, some y => some ((x - y) / ((ep : ℚ) - (prev : ℚ)))
                  | _, _ => none))
    ∧ ((∃ ep ∈ extras, ¬ ∃ b ∈ bases, b < ep ∧ (Col.per b) ∈ df.cols) →
        isError (process_extra_periods bases extras df) = true) := by
  have hbridge : ∀ ep : Int, (∃ b ∈ bases, b < ep ∧ (Col.per b) ∈ df.cols) ↔
      bases.filter (fun b => decide (b < ep) && decide ((Col.per b) ∈ df.cols)) ≠ [] := by
    intro ep
    constructor
    · rintro ⟨b, hb, hlt, hcol⟩ hnil
      have hmem : b ∈ bases.filter
          (fun b' => decide (b' < ep) && decide ((Col.per b') ∈ df.cols)) :=
        List.mem_filter.2 ⟨hb, by simp [hlt, hcol]⟩
      rw [hnil] at hmem
      exact List.not_mem_nil b hmem
    · intro hne
      cases hfc : bases.filter
          (fun b => decide (b < ep) && decide ((Col.per b) ∈ df.cols)) with
      | nil => exact absurd hfc hne
      | cons b bs =>
          have hb : b ∈ bases.filter
              (fun b' => decide (b' < ep) && decide ((Col.per b') ∈ df.cols)) := by
            rw [hfc]; exact List.mem_cons_self _ _
          have h2 := List.mem_filter.1 hb
          have h3 : b < ep ∧ (Col.per b) ∈ df.cols := by simpa using h2.2
          exact ⟨b, h2.1, h3⟩
  constructor
  · intro hcond
    have hcond' : ∀ ep ∈ extras, (Col.per ep) ∈ df.cols ∧
        bases.filter (fun b => decide (b < ep) && decide ((Col.per b) ∈ df.cols)) ≠ [] :=
      fun ep he => ⟨(hcond ep he).1, (hbridge ep).1 (hcond ep he).2⟩
    obtain ⟨df2, hfold, hcols, hframe, hmarg⟩ :=
      foldExtras_spec bases extras df hnd hdisj hcond'
    have hrun : process_extra_periods bases extras df
        = .ok ⟨renameExtras extras df2.cols, df2.cell⟩ := by
      unfold process_extra_periods
      rw [hfold]
      rfl
    refine ⟨⟨renameExtras extras df2.cols, df2.cell⟩, hrun, by rw [hcols], ?_, ?_⟩
    · intro r d hd
      exact hframe r d hd
    · intro ep he
      obtain ⟨_, hfilne⟩ := hcond' ep he
      cases hfc : bases.filter
          (fun b => decide (b < ep) && decide ((Col.per b) ∈ df.cols)) with
      | nil => exact absurd hfc hfilne
      | cons b bs =>
          have hmemf : listMax b bs ∈ bases.filter
              (fun b' => decide (b' < ep) && decide ((Col.per b') ∈ df.cols)) := by
            rw [hfc]
            exact (listMax_spec bs b).1
          have h2 := List.mem_filter.1 hmemf
          have h3 : listMax b bs < ep ∧ (Col.per (listMax b bs)) ∈ df.cols := by
            simpa using h2.2
          refine ⟨listMax b bs, h2.1, h3.1, h3.2, ?_, ?_⟩
          · intro b' hb' hlt' hcol'
            have hb'f : b' ∈ bases.filter
                (fun x => decide (x < ep) && decide ((Col.per x) ∈ df.cols)) :=
              List.mem_filter.2 ⟨hb', by simp [hlt', hcol']⟩
            rw [hfc] at hb'f
            exact (listMax_spec bs b).2 b' hb'f
          · intro r
            have h4 := hmarg r ep he
            unfold marginalCell at h4
            rw [hfc] at h4
            exact h4
  · rintro ⟨ep, he, hnex⟩
    have hfil : bases.filter
        (fun b => decide (b < ep) && decide ((Col.per b) ∈ df.cols)) = [] := by
      by_contra h
      exact hnex ((hbridge ep).2 h)
    have herr := foldExtras_error bases extras df ⟨ep, he, hfil⟩
    unfold process_extra_periods
    cases hf : extras.foldlM (processExtraStep bases) df with
    | error msg => rfl
    | ok d =>
        rw [hf] at herr
        simp [isError] at herr

/-- Witness for C6 at `dfC6`: base periods 3 and 7, extra period 10; the
extra column becomes `(180 - 150) / (10 - 7) = 10` for row X, blank for
row Y whose extra-period price is missing, the base columns survive, and
the extra column is relabelled. -/
theorem extra_periods_spec_witness :
    ∃ df2, process_extra_periods [3, 7] [10] dfC6 = .ok df2
      ∧ df2.cols = [Col.per 3, Col.per 7, Col.extraLabel]
      ∧ df2.cell "X" 10 = some 10
      ∧ df2.cell "Y" 10 = none
      ∧ df2.cell "X" 7 = some 150 := by
  have h := (extra_periods_spec [3, 7] [10] dfC6 (by decide) (by decide)).1 ?_
  · obtain ⟨df2, hrun, hcols, hframe, hmarg⟩ := h
    obtain ⟨prev, hpb, hplt, hpcol, hpmax, hcell⟩ := hmarg 10 (by decide)
    have h7 : (7 : ℤ) ≤ prev := hpmax 7 (by decide) (by decide) (by decide)
    have hprev : prev = 7 := by
      have : prev = 3 ∨ prev = 7 := by simpa using hpb
      rcases this with h3 | h7'
      · omega
      · exact h7'
    subst hprev
    refine ⟨df2, hrun, by rw [hcols]; decide, ?_, ?_, ?_⟩
    · have hx := hcell "X"
      have e1 : dfC6.cell "X" 10 = some 180 := by decide
      have e2 : dfC6.cell "X" 7 = some 150 := by decide
      rw [e1, e2] at hx
      rw [hx]
      norm_num
    · have hy := hcell "Y"
      have e1 : dfC6.cell "Y" 10 = none := by decide
      rw [e1] at hy
      rw [hy]
    · have hx := hframe "X" 7 (by decide)
      rw [hx]
      decide
  · intro ep hep
    have : ep = 10 := by simpa using hep
    subst this
    exact ⟨by decide, 7, by decide, by decide, by decide⟩

/-- C6 counterexample to the claim as stated: in `build_csv_for_location_`
an extra period (2) with no preceding base period is silently skipped —
the function completes normally, the numeric column 2 stays in the header
unrenamed and keeps its raw price — while `process_extra_periods` raises
the error on the same input. -/
theorem ui_extra_silent_counterexample :
    (build_csv_extras [2, 5, 7] [2] dfC6u).cols = [Col.per 2, Col.per 5, Col.per 7]
    ∧ (build_csv_extras [2, 5, 7] [2] dfC6u).cell "X" 2 = some 100
    ∧ isError (process_extra_periods [5, 7] [2] dfC6u) = true := by
  refine ⟨by decide, by decide, by decide⟩

/-! ## C9 support: the `gen_output_file` matrix shape -/

theorem charsLE_total2 : ∀ (a b : List Char), charsLE a b = true ∨ charsLE b a = true := by
  intro a
  induction a with
  | nil => intro b; left; rfl
  | cons x xs ih =>
      intro b
      cases b with
      | nil => right; rfl
      | cons y ys =>
          by_cases hxy : x < y
          · left; simp [charsLE, hxy]
          · by_cases hyx : y < x
            · right; simp [charsLE, hyx]
            · rcases ih ys with h | h
              · left; simp [charsLE, hxy, hyx, h]
              · right; simp [charsLE, hxy, hyx, h]

theorem charsLE_trans2 : ∀ (a b c : List Char), charsLE a b = true →
    charsLE b c = true → charsLE a c = true := by
  intro a
  induction a with
  | nil => intro b c _ _; rfl
  | cons x xs ih =>
      intro b c h1 h2
      cases b with
      | nil => simp [charsLE] at h1
      | cons y ys =>
          cases c with
          | nil => simp [charsLE] at h2
          | cons z zs =>
              by_cases hxy : x < y
              · by_cases hyz : y < z
                · simp only [charsLE, if_pos (lt_trans hxy hyz)]
                · by_cases hzy : z < y
                  · simp only [charsLE, if_neg hyz, if_pos hzy] at h2
                    exact Bool.noConfusion h2
                  · have hyz' : y = z := le_antisymm (not_lt.1 hzy) (not_lt.1 hyz)
                    simp only [charsLE, if_pos (hyz' ▸ hxy)]
              · by_cases hyx : y < x
                · simp only [charsLE, if_neg hxy, if_pos hyx] at h1
                  exact Bool.noConfusion h1
                · have hxy' : x = y := le_antisymm (not_lt.1 hyx) (not_lt.1 hxy)
                  subst hxy'
                  simp only [charsLE, if_neg hxy] at h1
                  by_cases hyz : x < z
                  · simp only [charsLE, if_pos hyz]
                  · by_cases hzy : z < x
                    · simp only [charsLE, if_neg hyz, if_pos hzy] at h2
                      exact Bool.noConfusion h2
                    · simp only [charsLE, if_neg hyz, if_neg hzy] at h2 ⊢
                      exact ih ys zs h1 h2

theorem dinsert_of_not_mem {α β : Type} [DecidableEq α] {l : List (α × β)} {a : α}
    (b : β) (h : a ∉ l.map Prod.fst) : dinsert l a b = l ++ [(a, b)] := by
  induction l with
  | nil => rfl
  | cons p rest ih =>
      obtain ⟨k, v⟩ := p
      have hne : a ≠ k := by
        intro he
        exact h (by simp [he])
      have h' : a ∉ rest.map Prod.fst := fun hh => h (by simp [hh])
      simp [dinsert, hne, ih h']

theorem find?_key_nodup {β : Type} {l : List (Int × β)} {d : Int} {g : β}
    (hnd : (l.map Prod.fst).Nodup) (hmem : (d, g) ∈ l) :
    l.find? (fun p => decide (p.1 = d)) = some (d, g) := by
  induction l with
  | nil => exact absurd hmem (List.not_mem_nil _)
  | cons p rest ih =>
      obtain ⟨k, v⟩ := p
      have hnd2 : k ∉ rest.map Prod.fst ∧ (rest.map Prod.fst).Nodup := by
        simpa using hnd
      rcases List.mem_cons.1 hmem with he | hmem'
      · obtain ⟨hk, hv⟩ := Prod.mk.inj he
        subst hk
        subst hv
        simp [List.find?]
      · have hkd : k ≠ d := by
          intro he
          subst he
          exact hnd2.1 (List.mem_map_of_mem Prod.fst hmem')
        rw [List.find?]
        simp only [hkd, decide_eq_true_eq, if_neg]
        simp [hkd]
        exact ih hnd2.2 hmem'

theorem dget_dataPerPeriod_aux :
    ∀ (input : List (Int × List GItem)) (acc : List (Int × List (String × ℚ))) (d : Int),
      (input.map Prod.fst).Nodup →
      (∀ k ∈ acc.map Prod.fst, k ∉ input.map Prod.fst) →
      dget (input.foldl dppStep acc) d
        = match dget acc d with
          | some v => some v
          | none =>
              match input.find? (fun p => decide (p.1 = d)) with
              | none => none
              | some p =>
                  if periodPriceMap p.2 = [] then none else some (periodPriceMap p.2) := by
  intro input
  induction input with
  | nil =>
      intro acc d _ _
      cases h : dget acc d <;> simp [List.find?, h]
  | cons p rest ih =>
      intro acc d hnd hdisj
      obtain ⟨k, groups⟩ := p
      have hnd2 : k ∉ rest.map Prod.fst ∧ (rest.map Prod.fst).Nodup := by
        simpa using hnd
      have hbeta : dppStep acc (k, groups)
          = if periodPriceMap groups = [] then acc
            else dinsert acc k (periodPriceMap groups) := rfl
      rw [List.foldl_cons, hbeta]
      have hdisj' : ∀ k' ∈ (if periodPriceMap groups = [] then acc
          else dinsert acc k (periodPriceMap groups)).map Prod.fst,
          k' ∉ rest.map Prod.fst := by
        intro k' hk'
        by_cases hpm : periodPriceMap groups = []
        · rw [if_pos hpm] at hk'
          exact fun hmem => hdisj k' hk' (by simp [hmem])
        · rw [if_neg hpm] at hk'
          by_cases hkacc : k ∈ acc.map Prod.fst
          · exact absurd (by simp : k ∈ ((k, groups) :: rest).map Prod.fst)
              (hdisj k hkacc)
          · rw [dinsert_of_not_mem _ hkacc] at hk'
            simp only [List.map_append, List.mem_append] at hk'
            rcases hk' with h | h
            · exact fun hmem => hdisj k' h (by simp [hmem])
            · have hk'' : k' = k := by simpa using h
              subst hk''
              exact hnd2.1
      have hih := ih (if periodPriceMap groups = [] then acc
          else dinsert acc k (periodPriceMap groups)) d hnd2.2 hdisj'
      rw [hih]
      by_cases hpm : periodPriceMap groups = []
      · rw [if_pos hpm]
        by_cases hkd : k = d
        · subst hkd
          have hrest : rest.find? (fun p => decide (p.1 = k)) = none := by
            rw [List.find?_eq_none]
            intro p hp hdec
            have hh : p.1 = k := of_decide_eq_true hdec
            exact hnd2.1 (hh ▸ List.mem_map_of_mem Prod.fst hp)
          have hfind : ((k, groups) :: rest).find? (fun p => decide (p.1 = k))
              = some (k, groups) := by
            simp [List.find?]
          cases hacc : dget acc k with
          | some v => rfl
          | none => simp [hrest, hfind, hpm]
        · have hfind : ((k, groups) :: rest).find? (fun p => decide (p.1 = d))
              = rest.find? (fun p => decide (p.1 = d)) := by
            rw [List.find?]
            simp [hkd]
          rw [hfind]
      · rw [if_neg hpm]
        by_cases hkd : k = d
        · subst hkd
          have hkacc : k ∉ acc.map Prod.fst :=
            fun hmem => hdisj k hmem (by simp)
          have hacc : dget acc k = none := (dget_eq_none_iff acc k).2 hkacc
          have hfind : ((k, groups) :: rest).find? (fun p => decide (p.1 = k))
              = some (k, groups) := by
            simp [List.find?]
          rw [dget_dinsert_self]
          simp [hacc, hfind, hpm]
        · rw [dget_dinsert_ne _ _ _ _ (Ne.symm hkd)]
          have hfind : ((k, groups) :: rest).find? (fun p => decide (p.1 = d))
              = rest.find? (fun p => decide (p.1 = d)) := by
            rw [List.find?]
            simp [hkd]
          rw [hfind]

theorem keysNodup_dppfold : ∀ (input : List (Int × List GItem))
    (acc : List (Int × List (String × ℚ))),
    (input.map Prod.fst).Nodup →
    (∀ k ∈ acc.map Prod.fst, k ∉ input.map Prod.fst) →
    keysNodup acc → keysNodup (input.foldl dppStep acc) := by
  intro input
  induction input with
  | nil => intro acc _ _ h; exact h
  | cons p rest ih =>
      intro acc hnd hdisj hacc
      obtain ⟨k, groups⟩ := p
      have hnd2 : k ∉ rest.map Prod.fst ∧ (rest.map Prod.fst).Nodup := by
        simpa using hnd
      rw [List.foldl_cons]
      apply ih
      · exact hnd2.2
      · intro k' hk'
        by_cases hpm : periodPriceMap groups = []
        · have he : dppStep acc (k, groups) = acc := by simp [dppStep, hpm]
          rw [he] at hk'
          exact fun hmem => hdisj k' hk' (by simp [hmem])
        · have hkacc : k ∉ acc.map Prod.fst :=
            fun hmem => hdisj k hmem (by simp)
          have he : dppStep acc (k, groups) = acc ++ [(k, periodPriceMap groups)] := by
            simp [dppStep, hpm, dinsert_of_not_mem _ hkacc]
          rw [he] at hk'
          simp only [List.map_append, List.mem_append] at hk'
          rcases hk' with h | h
          · exact fun hmem => hdisj k' h (by simp [hmem])
          · have hk'' : k' = k := by simpa using h
            subst hk''
            exact hnd2.1
      · by_cases hpm : periodPriceMap groups = []
        · have he : dppStep acc (k, groups) = acc := by simp [dppStep, hpm]
          rw [he]
          exact hacc
        · have hkacc : k ∉ acc.map Prod.fst :=
            fun hmem => hdisj k hmem (by simp)
          have he : dppStep acc (k, groups) = acc ++ [(k, periodPriceMap groups)] := by
            simp [dppStep, hpm, dinsert_of_not_mem _ hkacc]
          rw [he]
          unfold keysNodup at hacc ⊢
          rw [List.map_append]
          refine List.Nodup.append hacc (by simp) ?_
          intro x hx hx2
          have : x = k := by simpa using hx2
          subst this
          exact hkacc hx

theorem keysNodup_dataPerPeriod (input : List (Int × List GItem))
    (hnd : (input.map Prod.fst).Nodup) : keysNodup (dataPerPeriod input) := by
  unfold dataPerPeriod
  exact keysNodup_dppfold input [] hnd (by simp) (by simp [keysNodup])

theorem dget_dataPerPeriod (input : List (Int × List GItem)) (d : Int)
    (hnd : (input.map Prod.fst).Nodup) :
    dget (dataPerPeriod input) d
      = match input.find? (fun p => decide (p.1 = d)) with
        | none => none
        | some p =>
            if periodPriceMap p.2 = [] then none else some (periodPriceMap p.2) := by
  have h := dget_dataPerPeriod_aux input [] d hnd (by simp)
  unfold dataPerPeriod
  simpa [dget] using h

/-- C9: final matrix shape of `gen_output_file` — rows are the union of
all categories that recorded a price in some period, sorted ascending in
case-sensitive string order with no duplicates; columns are the periods
that recorded at least one price, sorted ascending with no duplicates; and
each cell is exactly the period's recorded price for that category
(`none` — a blank distinguishable from a recorded zero — when that period
recorded nothing for the row). Two periods with disjoint category sets
thus both contribute rows, blank where the other period has no data. -/
theorem gen_matrix_shape (input : List (Int × List GItem))
    (hkeys : (input.map Prod.fst).Nodup) :
    ((gen_output_file input).rows.Pairwise strLE)
    ∧ (gen_output_file input).rows.Nodup
    ∧ (∀ s, s ∈ (gen_output_file input).rows ↔
        ∃ p ∈ input, (dget (periodPriceMap p.2) s).isSome)
    ∧ ((gen_output_file input).cols.Pairwise (fun a b : Int => a ≤ b))
    ∧ (gen_output_file input).cols.Nodup
    ∧ (∀ d, d ∈ (gen_output_file input).cols ↔
        ∃ p ∈ input, p.1 = d ∧ periodPriceMap p.2 ≠ [])
    ∧ (∀ s d groups, (d, groups) ∈ input →
        (gen_output_file input).cell s d = dget (periodPriceMap groups) s) := by
  have hdppnd := keysNodup_dataPerPeriod input hkeys
  have hrows_eq : (gen_output_file input).rows
      = sortByB (fun a b : String => charsLE a.data b.data)
          ((dataPerPeriod input).foldl
            (fun s p => s ++ p.2.map Prod.fst) []).dedup := rfl
  have hcols_eq : (gen_output_file input).cols
      = sortByB (fun a b : Int => decide (a ≤ b))
          ((dataPerPeriod input).map Prod.fst) := rfl
  have hflat : (dataPerPeriod input).foldl (fun s p => s ++ p.2.map Prod.fst) []
      = ((dataPerPeriod input).map (fun p => p.2.map Prod.fst)).flatten := by
    have h := gather_eq_join_aux (fun p : Int × List (String × ℚ) => p.2.map Prod.fst)
      (dataPerPeriod input) []
    simpa using h
  have hmemdpp : ∀ (q : Int × List (String × ℚ)), q ∈ dataPerPeriod input ↔
      ∃ p ∈ input, periodPriceMap p.2 ≠ [] ∧ q = (p.1, periodPriceMap p.2) := by
    intro q
    constructor
    · intro hq
      have hdg : dget (dataPerPeriod input) q.1 = some q.2 :=
        dget_self_of_nodup hdppnd q hq
      rw [dget_dataPerPeriod input q.1 hkeys] at hdg
      cases hf : input.find? (fun p => decide (p.1 = q.1)) with
      | none => rw [hf] at hdg; exact absurd hdg (by simp)
      | some p =>
          rw [hf] at hdg
          have hdg2 : (if periodPriceMap p.2 = [] then none
              else some (periodPriceMap p.2)) = some q.2 := hdg
          by_cases hpm : periodPriceMap p.2 = []
          · rw [if_pos hpm] at hdg2
            exact absurd hdg2 (by simp)
          · rw [if_neg hpm] at hdg2
            have hp0 := List.find?_some hf
            have hp1 : p.1 = q.1 := of_decide_eq_true hp0
            have hpmem : p ∈ input := List.mem_of_find?_eq_some hf
            refine ⟨p, hpmem, hpm, ?_⟩
            have hq2 : q.2 = periodPriceMap p.2 := (Option.some.inj hdg2).symm
            have : q = (q.1, q.2) := rfl
            rw [this, hq2, hp1]
    · rintro ⟨p, hpmem, hpm, rfl⟩
      have hfind : input.find? (fun p' => decide (p'.1 = p.1)) = some p := by
        have : ((p.1, p.2) : Int × List GItem) ∈ input := by
          simpa using hpmem
        have h2 := find?_key_nodup hkeys this
        simpa using h2
      have hdg : dget (dataPerPeriod input) p.1 = some (periodPriceMap p.2) := by
        rw [dget_dataPerPeriod input p.1 hkeys, hfind]
        show (if periodPriceMap p.2 = [] then none
            else some (periodPriceMap p.2)) = some (periodPriceMap p.2)
        rw [if_neg hpm]
      exact dget_mem hdg
  refine ⟨?_, ?_, ?_, ?_, ?_, ?_, ?_⟩
  · rw [hrows_eq]
    exact (pairwise_sortByB (fun a b : String => charsLE a.data b.data)
      (fun a b : String => charsLE_total2 a.data b.data)
      (fun a b c : String => charsLE_trans2 a.data b.data c.data) _).imp (fun h => h)
  · rw [hrows_eq]
    exact ((perm_sortByB (fun a b : String => charsLE a.data b.data) _).nodup_iff).2
      (List.nodup_dedup _)
  · intro s
    rw [hrows_eq]
    rw [(perm_sortByB (fun a b : String => charsLE a.data b.data) _).mem_iff,
      List.mem_dedup, hflat, List.mem_flatten]
    constructor
    · rintro ⟨l, hl, hsl⟩
      obtain ⟨q, hq, rfl⟩ := List.mem_map.1 hl
      obtain ⟨p, hpmem, hpm, rfl⟩ := (hmemdpp q).1 hq
      refine ⟨p, hpmem, ?_⟩
      simp only [] at hsl
      obtain ⟨⟨s', v⟩, hsv, rfl⟩ := List.mem_map.1 hsl
      have : dget (periodPriceMap p.2) s' ≠ none := by
        intro hcon
        rw [dget_eq_none_iff] at hcon
        exact hcon (List.mem_map_of_mem Prod.fst hsv)
      exact Option.isSome_iff_ne_none.2 this
    · rintro ⟨p, hpmem, hsome⟩
      have hpm : periodPriceMap p.2 ≠ [] := by
        intro hcon
        rw [hcon] at hsome
        simp [dget] at hsome
      refine ⟨(periodPriceMap p.2).map Prod.fst, ?_, ?_⟩
      · exact List.mem_map.2 ⟨(p.1, periodPriceMap p.2),
          (hmemdpp _).2 ⟨p, hpmem, hpm, rfl⟩, rfl⟩
      · obtain ⟨v, hv⟩ := Option.isSome_iff_exists.1 hsome
        exact List.mem_map.2 ⟨(s, v), dget_mem hv, rfl⟩
  · rw [hcols_eq]
    refine (pairwise_sortByB (fun a b : Int => decide (a ≤ b)) ?_ ?_ _).imp
      (fun h => of_decide_eq_true h)
    · intro a b
      rcases le_total a b with h | h
      · exact Or.inl (decide_eq_true h)
      · exact Or.inr (decide_eq_true h)
    · intro a b c h1 h2
      exact decide_eq_true (le_trans (of_decide_eq_true h1) (of_decide_eq_true h2))
  · rw [hcols_eq]
    exact ((perm_sortByB (fun a b : Int => decide (a ≤ b)) _).nodup_iff).2 hdppnd
  · intro d
    rw [hcols_eq, (perm_sortByB (fun a b : Int => decide (a ≤ b)) _).mem_iff]
    constructor
    · intro hd
      obtain ⟨q, hq, rfl⟩ := List.mem_map.1 hd
      obtain ⟨p, hpmem, hpm, rfl⟩ := (hmemdpp q).1 hq
      exact ⟨p, hpmem, rfl, hpm⟩
    · rintro ⟨p, hpmem, rfl, hpm⟩
      exact List.mem_map.2 ⟨(p.1, periodPriceMap p.2),
        (hmemdpp _).2 ⟨p, hpmem, hpm, rfl⟩, rfl⟩
  · intro s d groups hmem
    have hfind : input.find? (fun p' => decide (p'.1 = d)) = some (d, groups) :=
      find?_key_nodup hkeys hmem
    have hcell : (gen_output_file input).cell s d
        = dget (dgetD (dataPerPeriod input) d []) s := rfl
    rw [hcell]
    unfold dgetD
    rw [dget_dataPerPeriod input d hkeys, hfind]
    show dget ((if periodPriceMap groups = [] then none
        else some (periodPriceMap groups)).getD []) s = dget (periodPriceMap groups) s
    by_cases hpm : periodPriceMap groups = []
    · rw [if_pos hpm, hpm]
      rfl
    · rw [if_neg hpm]
      rfl

/-- Witness for C9 at `inputC9` — two periods (3 and 7 days) with disjoint
category sets X and Y: both rows appear, sorted, and each row is blank in
the period that has no data for it. -/
theorem gen_matrix_shape_witness :
    (gen_output_file inputC9).rows = ["X", "Y"]
    ∧ (gen_output_file inputC9).cols = [3, 7]
    ∧ (gen_output_file inputC9).cell "X" 3 = some 49
    ∧ (gen_output_file inputC9).cell "X" 7 = none
    ∧ (gen_output_file inputC9).cell "Y" 3 = none
    ∧ (gen_output_file inputC9).cell "Y" 7 = some 79 := by
  have h := gen_matrix_shape inputC9 (by decide)
  refine ⟨by decide, by decide, ?_, ?_, ?_, ?_⟩
  · rw [h.2.2.2.2.2.2 "X" 3 [⟨"X", some ⟨"s", "t", none, some 50⟩⟩] (by decide)]
    decide
  · rw [h.2.2.2.2.2.2 "X" 7 [⟨"Y", some ⟨"s", "t", none, some 80⟩⟩] (by decide)]
    decide
  · rw [h.2.2.2.2.2.2 "Y" 3 [⟨"X", some ⟨"s", "t", none, some 50⟩⟩] (by decide)]
    decide
  · rw [h.2.2.2.2.2.2 "Y" 7 [⟨"Y", some ⟨"s", "t", none, some 80⟩⟩] (by decide)]
    decide

/-! ## C10: frame property of both resolvers -/

theorem foldl_append_map {α β : Type} (f : α → β) (l : List α) :
    ∀ (acc : List β), l.foldl (fun out g => out ++ [f g]) acc = acc ++ l.map f := by
  induction l with
  | nil => intro acc; simp
  | cons g rest ih =>
      intro acc
      rw [List.foldl_cons, ih]
      simp

/-- C10: under both policies the output has exactly one record per input
category, in input order; the category record itself is embedded unchanged
(the only added field is `selected_car_details`); and that field is null
exactly when the per-category resolution selected no offer. -/
theorem resolver_frame (fetchA : String → Option Detail) (fetchB : String → FetchResult)
    (cars : List Offer) (gruppi : List Group) :
    step_5 fetchA cars gruppi
        = gruppi.map (fun g => ⟨g, step5Group fetchA (cars_by_model cars) g⟩)
    ∧ step5v2 fetchB cars gruppi
        = gruppi.map (fun g =>
            ⟨g, step5v2Group fetchB
              ((offersByModel cars).map (fun p => (p.1, sortOffers p.2))) g⟩)
    ∧ (step_5 fetchA cars gruppi).map GroupOut.grp = gruppi
    ∧ (step5v2 fetchB cars gruppi).map GroupOut.grp = gruppi
    ∧ (step_5 fetchA cars gruppi).map (fun go => go.selected_car_details.isNone)
        = gruppi.map (fun g => (step5Group fetchA (cars_by_model cars) g).isNone)
    ∧ (step5v2 fetchB cars gruppi).map (fun go => go.selected_car_details.isNone)
        = gruppi.map (fun g =>
            (step5v2Group fetchB
              ((offersByModel cars).map (fun p => (p.1, sortOffers p.2))) g).isNone) := by
  have h1 : step_5 fetchA cars gruppi
      = gruppi.map (fun g => ⟨g, step5Group fetchA (cars_by_model cars) g⟩) := by
    unfold step_5
    have h := foldl_append_map
      (fun g => (⟨g, step5Group fetchA (cars_by_model cars) g⟩ : GroupOut)) gruppi []
    simpa using h
  have h2 : step5v2 fetchB cars gruppi
      = gruppi.map (fun g =>
          ⟨g, step5v2Group fetchB
            ((offersByModel cars).map (fun p => (p.1, sortOffers p.2))) g⟩) := by
    unfold step5v2
    have h := foldl_append_map
      (fun g => (⟨g, step5v2Group fetchB
        ((offersByModel cars).map (fun p => (p.1, sortOffers p.2))) g⟩ : GroupOut)) gruppi []
    simpa using h
  refine ⟨h1, h2, ?_, ?_, ?_, ?_⟩
  · rw [h1, List.map_map]; exact List.map_id gruppi
  · rw [h2, List.map_map]; exact List.map_id gruppi
  · rw [h1]; simp [List.map_map, Function.comp_def]
  · rw [h2]; simp [List.map_map, Function.comp_def]

end DCT
